import Mathlib

/-!
Verification development for the `templa` library (src/src/templa).

The Python code is modelled by a shallow embedding:

* Python objects that matter here (dicts and lists) live in an explicit
  heap of numbered cells; scalar values (`None`, `int`, `str`) are
  immediate.  Mutation of a dict/list is an update of its heap cell, and
  aliasing is sharing of a cell address.
* `copy.deepcopy` of an (acyclic) object graph is modelled as reading the
  graph back into a pure tree (`readValP`) and re-allocating that tree at
  fresh addresses (`writeVal`).
* Methods that can raise return `Except PyErr`; the extra error
  `outOfFuel` is a model artifact of the fuel-bounded graph readback and
  never corresponds to a Python exception on the (finite, acyclic) data
  the library manipulates.
* The user-supplied callables (`parse_rendered_template`,
  `build_processed`, the template's `render`) are modelled as pure
  functions on the structural value of their arguments; the value a
  callable returns is allocated fresh in the heap, mirroring a Python
  callable that builds its result from the rendered text.

The staged `Builder` token discipline (the `NewType` stage tokens of
builder.py) is additionally modelled as a small trace state machine,
used for the temporal ordering claim.
-/

namespace Templa

/-- Heap addresses of mutable Python objects. -/
abbrev Addr := Nat

/-- A Python value as seen in a variable or container slot: scalars are
immediate, dicts and lists are references into the heap. -/
inductive PyVal where
  | vnone
  | vint (n : Int)
  | vstr (s : String)
  | vref (a : Addr)
deriving DecidableEq, Repr

/-- A mutable heap object: a dict (association list of key/value slots,
in insertion order) or a list. -/
inductive PyObj where
  | odict (entries : List (PyVal × PyVal))
  | olist (elems : List PyVal)
deriving DecidableEq, Repr

/-- The heap: allocation counter plus cells.  Fresh cells are prepended. -/
structure Heap where
  next : Addr
  mem : List (Addr × PyObj)
deriving DecidableEq, Repr

/-- Look up the object stored at an address. -/
def Heap.lookup (h : Heap) (a : Addr) : Option PyObj :=
  (h.mem.find? (fun p => p.1 == a)).map (fun p => p.2)

/-- Allocate a fresh cell holding `o` and return a reference to it. -/
def Heap.alloc (h : Heap) (o : PyObj) : Heap × PyVal :=
  ({ next := h.next + 1, mem := (h.next, o) :: h.mem }, .vref h.next)

/-- Overwrite the object stored at address `a` (in-place mutation). -/
def Heap.update (h : Heap) (a : Addr) (o : PyObj) : Heap :=
  { next := h.next, mem := h.mem.map (fun p => if p.1 == a then (a, o) else p) }

/-- A heap is well formed when every allocated cell lies below the
allocation counter. -/
def Heap.wf (h : Heap) : Prop :=
  ∀ p ∈ h.mem, p.1 < h.next

instance (h : Heap) : Decidable h.wf := by
  unfold Heap.wf; infer_instance

/-- Pure structural value of a Python object graph.  Dict objects read
back as `tdnil`/`tdcons` chains (keys and values in insertion order),
list objects as `tlnil`/`tlcons` chains. -/
inductive Tree where
  | tnone
  | tint (n : Int)
  | tstr (s : String)
  | tdnil
  | tdcons (key val rest : Tree)
  | tlnil
  | tlcons (head rest : Tree)
deriving DecidableEq, Repr

/-- Fuel a readback needs to reproduce a tree: one unit per dereference
level. -/
def Tree.fuelNeed : Tree → Nat
  | .tnone => 1
  | .tint _ => 1
  | .tstr _ => 1
  | .tdnil => 1
  | .tdcons k v r => max (max k.fuelNeed v.fuelNeed) (r.fuelNeed - 1) + 1
  | .tlnil => 1
  | .tlcons x r => max x.fuelNeed (r.fuelNeed - 1) + 1

/-- Fuel needed by the members of an entry/element chain: one less than
the chain needs as a dict/list value. -/
def Tree.chainNeed (t : Tree) : Nat := t.fuelNeed - 1

/-- Read a dict's entry list back as a `tdnil`/`tdcons` chain, the
members read by `rv`. -/
def readEntriesAux (rv : PyVal → Option Tree) : List (PyVal × PyVal) → Option Tree
  | [] => some .tdnil
  | (k, v) :: rest => do
    let tk ← rv k
    let tv ← rv v
    let tr ← readEntriesAux rv rest
    some (.tdcons tk tv tr)

/-- Read a list's element list back as a `tlnil`/`tlcons` chain, the
members read by `rv`. -/
def readElemsAux (rv : PyVal → Option Tree) : List PyVal → Option Tree
  | [] => some .tlnil
  | x :: rest => do
    let tx ← rv x
    let tr ← readElemsAux rv rest
    some (.tlcons tx tr)

/-- Read the object graph reachable from `v` back as a pure tree,
dereferencing only addresses satisfying `P`, with the fuel bounding the
dereference depth. -/
def readValP : Nat → (Addr → Bool) → Heap → PyVal → Option Tree
  | 0, _, _, _ => none
  | _ + 1, _, _, .vnone => some .tnone
  | _ + 1, _, _, .vint n => some (.tint n)
  | _ + 1, _, _, .vstr s => some (.tstr s)
  | f + 1, P, h, .vref a =>
    if P a then
      match h.lookup a with
      | some (.odict es) => readEntriesAux (readValP f P h) es
      | some (.olist xs) => readElemsAux (readValP f P h) xs
      | none => none
    else none

/-- Entry-list readback at a given fuel. -/
def readEntriesP (f : Nat) (P : Addr → Bool) (h : Heap) (es : List (PyVal × PyVal)) :
    Option Tree :=
  readEntriesAux (readValP f P h) es

/-- Element-list readback at a given fuel. -/
def readElemsP (f : Nat) (P : Addr → Bool) (h : Heap) (xs : List PyVal) : Option Tree :=
  readElemsAux (readValP f P h) xs

/-- Allocate the members of a dict-entry chain, members written by `wv`. -/
def writeEntriesAux (wv : Tree → Heap → Heap × PyVal) : Tree → Heap → Heap × List (PyVal × PyVal)
  | .tdcons k v r, h =>
    let p1 := wv k h
    let p2 := wv v p1.1
    let p3 := writeEntriesAux wv r p2.1
    (p3.1, (p1.2, p2.2) :: p3.2)
  | _, h => (h, [])

/-- Allocate the members of a list-element chain, members written by `wv`. -/
def writeElemsAux (wv : Tree → Heap → Heap × PyVal) : Tree → Heap → Heap × List PyVal
  | .tlcons x r, h =>
    let p1 := wv x h
    let p2 := writeElemsAux wv r p1.1
    (p2.1, p1.2 :: p2.2)
  | _, h => (h, [])

/-- Allocate a pure tree as a fresh object graph in the heap, the fuel
mirroring the readback's dereference-depth accounting (any fuel at
least `Tree.fuelNeed` writes the tree in full). -/
def writeValF : Nat → Tree → Heap → Heap × PyVal
  | 0, _, h => (h, .vnone)
  | _ + 1, .tnone, h => (h, .vnone)
  | _ + 1, .tint n, h => (h, .vint n)
  | _ + 1, .tstr s, h => (h, .vstr s)
  | _ + 1, .tdnil, h => h.alloc (.odict [])
  | f + 1, .tdcons k v r, h =>
    let p := writeEntriesAux (writeValF f) (.tdcons k v r) h
    p.1.alloc (.odict p.2)
  | _ + 1, .tlnil, h => h.alloc (.olist [])
  | f + 1, .tlcons x r, h =>
    let p := writeElemsAux (writeValF f) (.tlcons x r) h
    p.1.alloc (.olist p.2)

/-- Entry-chain allocation at a given fuel. -/
def writeEntriesF (f : Nat) (t : Tree) (h : Heap) : Heap × List (PyVal × PyVal) :=
  writeEntriesAux (writeValF f) t h

/-- Element-chain allocation at a given fuel. -/
def writeElemsF (f : Nat) (t : Tree) (h : Heap) : Heap × List PyVal :=
  writeElemsAux (writeValF f) t h

/-- Allocate a pure tree in full: fuel is exactly what it needs. -/
def writeTree (t : Tree) (h : Heap) : Heap × PyVal :=
  writeValF t.fuelNeed t h

/-- Dereference predicate: addresses at or above `n` (the fresh region of
a heap whose counter was `n`). -/
def atLeastB (n : Nat) : Addr → Bool := fun a => decide (n ≤ a)

/-- Dereference predicate: addresses strictly below `n`. -/
def belowB (n : Nat) : Addr → Bool := fun a => decide (a < n)

/-- Heap evolution that keeps every `P`-dereferenceable cell intact. -/
def preserves (P : Addr → Bool) (h h' : Heap) : Prop :=
  ∀ a, P a = true → ∀ o, h.lookup a = some o → h'.lookup a = some o

/-- Whether a tree can stand at the head of a dict-entry chain. -/
def Tree.isDHead : Tree → Bool
  | .tdnil => true
  | .tdcons _ _ _ => true
  | _ => false

/-- Whether a tree can stand at the head of a list-element chain. -/
def Tree.isLHead : Tree → Bool
  | .tlnil => true
  | .tlcons _ _ => true
  | _ => false

/-- A tree denotes an actual Python value: the rest of every dict chain
is again a dict chain, and likewise for list chains.  Graph readbacks
only ever produce such trees. -/
def Tree.isWF : Tree → Bool
  | .tnone => true
  | .tint _ => true
  | .tstr _ => true
  | .tdnil => true
  | .tdcons k v r => k.isWF && v.isWF && r.isWF && r.isDHead
  | .tlnil => true
  | .tlcons x r => x.isWF && r.isWF && r.isLHead

/-- Wellformedness of a dict-entry chain. -/
def Tree.isDChainWF (t : Tree) : Bool := t.isWF && t.isDHead

/-- Wellformedness of a list-element chain. -/
def Tree.isLChainWF (t : Tree) : Bool := t.isWF && t.isLHead

/-- Equality on `Except` results is decidable when both components are. -/
instance {ε α : Type} [DecidableEq ε] [DecidableEq α] : DecidableEq (Except ε α) := fun x y =>
  match x, y with
  | .ok a, .ok b =>
    if h : a = b then .isTrue (by rw [h]) else .isFalse (fun hc => h (Except.ok.inj hc))
  | .error e, .error e' =>
    if h : e = e' then .isTrue (by rw [h]) else .isFalse (fun hc => h (Except.error.inj hc))
  | .ok _, .error _ => .isFalse (fun hc => Except.noConfusion hc)
  | .error _, .ok _ => .isFalse (fun hc => Except.noConfusion hc)

/-- Errors a modelled method can signal.  `outOfFuel` is a model
artifact of the fuel-bounded readback, not a Python exception. -/
inductive PyErr where
  | notSameBuilderInstance
  | typeError
  | configDataNotLoaded
  | outOfFuel
deriving DecidableEq, Repr

/-- Structural readback with unrestricted dereferencing, as an `Except`. -/
def readValE (f : Nat) (h : Heap) (v : PyVal) : Except PyErr Tree :=
  match readValP f (fun _ => true) h v with
  | some t => .ok t
  | none => .error .outOfFuel

/-- Model of `copy.deepcopy` on an acyclic object graph: read the
structural value, then allocate it again at fresh addresses. -/
def deepcopyE (f : Nat) (h : Heap) (v : PyVal) : Except PyErr (Heap × PyVal) :=
  match readValE f h v with
  | .ok t => .ok (writeValF f t h)
  | .error e => .error e

/-- Python type annotations, kept on field declarations only so that
statements can talk about a value matching or not matching its declared
annotation.  Dataclasses do not check annotations at runtime. -/
inductive PyTy where
  | tyNone
  | tyInt
  | tyStr
  | tyDict
  | tyList
deriving DecidableEq, Repr

/-- Runtime type of a scalar value (`None`, `int`, `str`). -/
def scalarTy : PyVal → Option PyTy
  | .vnone => some .tyNone
  | .vint _ => some .tyInt
  | .vstr _ => some .tyStr
  | .vref _ => none

/-- One declared field of a frozen `ConfigData` dataclass: its name and
its (unenforced) type annotation, in declaration order. -/
structure FieldSpec where
  name : String
  ty : PyTy
deriving DecidableEq, Repr

/-- Model of a `templa.Config` instance (config.py).  `rawConfigDict` is
`self.__raw_config_dict`, `configDataFields` stands for the
`ConfigDataClass` argument (its dataclass fields, in declaration order),
and `data` is `self.__data`: `none` until `load_config` has run, then
the constructed frozen record as a name/value list in field order. -/
structure ConfigObj where
  rawConfigDict : PyVal
  configDataFields : List FieldSpec
  data : Option (List (String × PyVal))
deriving DecidableEq, Repr

/-- Model of `Config.__init__` (config.py lines 39-44).  The raw mapping
argument is stored as given: the reference is aliased, not copied. -/
def Config.mkConfig (raw_config_dict : PyVal) (fields : List FieldSpec) : ConfigObj :=
  { rawConfigDict := raw_config_dict, configDataFields := fields, data := none }

/-- Model of the `Config.raw_config_dict` property (config.py lines
46-49): a deep copy of the stored mapping. -/
def Config.raw_config_dict (f : Nat) (h : Heap) (c : ConfigObj) :
    Except PyErr (Heap × PyVal) :=
  deepcopyE f h c.rawConfigDict

/-- Model of the `Config.data` property (config.py lines 55-60): the
loaded record, or `none`; no copy is made and nothing is raised. -/
def Config.data_property (c : ConfigObj) : Option (List (String × PyVal)) :=
  c.data

/-- Keyword expansion of a dict's top-level entries for a `**` call:
every key must be a string, otherwise Python raises a TypeError. -/
def kwargsOfEntries : List (PyVal × PyVal) → Except PyErr (List (String × PyVal))
  | [] => .ok []
  | (k, v) :: rest =>
    match k with
    | .vstr s =>
      match kwargsOfEntries rest with
      | .ok kws => .ok ((s, v) :: kws)
      | .error e => .error e
    | _ => .error .typeError

/-- Keyword expansion `**self.__raw_config_dict`: the argument must be a
mapping. -/
def kwargsOfRawDict (h : Heap) (v : PyVal) : Except PyErr (List (String × PyVal)) :=
  match v with
  | .vref a =>
    match h.lookup a with
    | some (.odict es) => kwargsOfEntries es
    | _ => .error .typeError
  | _ => .error .typeError

/-- Gather, in declaration order, the keyword value supplied for each
declared field; `none` when some field received no value. -/
def fieldsLookup (kwargs : List (String × PyVal)) : List FieldSpec → Option (List (String × PyVal))
  | [] => some []
  | fs :: rest =>
    match kwargs.find? (fun kv => kv.1 == fs.name) with
    | none => none
    | some kv =>
      match fieldsLookup kwargs rest with
      | none => none
      | some record => some ((fs.name, kv.2) :: record)

/-- Model of the dataclass-generated constructor
`self.__ConfigData(**kwargs)`: every declared field must receive a
keyword value (missing field: TypeError) and every keyword must name a
declared field (unexpected keyword: TypeError).  Values are stored by
reference, and type annotations are NOT validated — Python dataclasses
do not check them at runtime. -/
def ConfigDataCtor (fields : List FieldSpec) (kwargs : List (String × PyVal)) :
    Except PyErr (List (String × PyVal)) :=
  if kwargs.all (fun kv => fields.any (fun fs => fs.name == kv.1)) then
    match fieldsLookup kwargs fields with
    | some record => .ok record
    | none => .error .typeError
  else .error .typeError

/-- Model of `Config.load_config` (config.py lines 51-53):
`self.__data = self.__ConfigData(**self.__raw_config_dict)`. -/
def Config.load_config (h : Heap) (c : ConfigObj) : Except PyErr ConfigObj :=
  match kwargsOfRawDict h c.rawConfigDict with
  | .error e => .error e
  | .ok kwargs =>
    match ConfigDataCtor c.configDataFields kwargs with
    | .error e => .error e
    | .ok record => .ok { c with data := some record }

/-- The Config object after a `load_config` call: if the constructor
raised, the assignment to `self.__data` never happened, so the object is
exactly as it was. -/
def Config.load_config_run (h : Heap) (c : ConfigObj) : ConfigObj :=
  match Config.load_config h c with
  | .ok c' => c'
  | .error _ => c

/-- Model of `dataclasses.asdict` applied to the record: a fresh dict of
field name to deep-copied field value, in declaration order. -/
def asdictEntries (f : Nat) (h : Heap) :
    List (String × PyVal) → Except PyErr (Heap × List (PyVal × PyVal))
  | [] => .ok (h, [])
  | (n, v) :: rest =>
    match deepcopyE f h v with
    | .error e => .error e
    | .ok (h1, v') =>
      match asdictEntries f h1 rest with
      | .error e => .error e
      | .ok (h2, ps) => .ok (h2, (.vstr n, v') :: ps)

/-- Model of `Config._get_render_context` (config.py lines 66-84): an
empty fresh dict when `data` is `None`, else `asdict(data)`. -/
def Config._get_render_context (f : Nat) (h : Heap)
    (data : Option (List (String × PyVal))) : Except PyErr (Heap × PyVal) :=
  match data with
  | none => .ok (h.alloc (.odict []))
  | some record =>
    match asdictEntries f h record with
    | .error e => .error e
    | .ok (h1, es) => .ok (h1.alloc (.odict es))

/-- Model of `Config.get_render_context` (config.py lines 62-64). -/
def Config.get_render_context (f : Nat) (h : Heap) (c : ConfigObj) :
    Except PyErr (Heap × PyVal) :=
  Config._get_render_context f h c.data

/-- Deep copy of a loaded record's values (part of deep-copying a Config
instance). -/

def recordDeepcopy (f : Nat) (h : Heap) :
    List (String × PyVal) → Except PyErr (Heap × List (String × PyVal))
  | [] => .ok (h, [])
  | (n, v) :: rest =>
    match deepcopyE f h v with
    | .error e => .error e
    | .ok (h1, v') =>
      match recordDeepcopy f h1 rest with
      | .error e => .error e
      | .ok (h2, rec') => .ok (h2, (n, v') :: rec')

/-- Model of `copy.deepcopy` on a Config instance: the raw mapping and
any loaded record values are copied afresh.  (The memo-based sharing
Python's deepcopy would preserve between the two is not modelled; the
only caller, `Builder.__init__`, immediately re-runs `load_config` on
the copy, overwriting the record.) -/
def ConfigObj.deepcopyObj (f : Nat) (h : Heap) (c : ConfigObj) :
    Except PyErr (Heap × ConfigObj) :=
  match deepcopyE f h c.rawConfigDict with
  | .error e => .error e
  | .ok (h1, raw') =>
    match c.data with
    | none =>
      .ok (h1, { rawConfigDict := raw', configDataFields := c.configDataFields, data := none })
    | some record =>
      match recordDeepcopy f h1 record with
      | .error e => .error e
      | .ok (h2, record') =>
        .ok (h2,
          { rawConfigDict := raw', configDataFields := c.configDataFields,
            data := some record' })

/-- Model of a `TemplateGettable` capability: some mutable instance
state in the heap, plus the pure rendering behaviour of the template it
returns — `renderOf stateValue contextValue` is the rendered text of
`get_template().render(context)`. -/
structure TemplateGetter where
  state : PyVal
  renderOf : Tree → Tree → String

/-- Model of a `templa.Builder` instance (builder.py).  `selfId` is the
object identity (two distinct instances never share it); the remaining
fields are the private attributes set in `__init__`.  The user-supplied
callables are modelled as pure functions from the structural value of
their argument. -/
structure Builder where
  selfId : Nat
  config : ConfigObj
  renderContext : PyVal
  templateGetter : TemplateGetter
  parse_rendered_template : String → Tree
  build_processed : Tree → Tree
  processed : PyVal
  built : PyVal

/-- Model of `Builder.__init__` (builder.py lines 92-106): deep-copy the
Config, run `load_config` on the copy, cache its render context, deep
copy the template getter, and start with empty result slots. -/
def Builder.init (f : Nat) (h : Heap) (selfId : Nat) (config : ConfigObj)
    (template_getter : TemplateGetter) (parse : String → Tree) (buildp : Tree → Tree) :
    Except PyErr (Heap × Builder) :=
  match ConfigObj.deepcopyObj f h config with
  | .error e => .error e
  | .ok (h1, cfgCopy) =>
    match Config.load_config h1 cfgCopy with
    | .error e => .error e
    | .ok cfgLoaded =>
      match Config.get_render_context f h1 cfgLoaded with
      | .error e => .error e
      | .ok (h2, ctx) =>
        match deepcopyE f h2 template_getter.state with
        | .error e => .error e
        | .ok (h3, tgs) =>
          .ok (h3,
            { selfId := selfId, config := cfgLoaded, renderContext := ctx,
              templateGetter := { state := tgs, renderOf := template_getter.renderOf },
              parse_rendered_template := parse, build_processed := buildp,
              processed := .vnone, built := .vnone })

/-- Model of `Builder._check_see_if_same_builder_instance` (builder.py
lines 118-122): `if self != target: raise NotSameBuilderInstanceError`.
A stage token is, at runtime, just the builder reference itself, and
default object inequality compares identities. -/
def Builder._check_see_if_same_builder_instance (b : Builder) (target : Nat) :
    Except PyErr Unit :=
  if b.selfId ≠ target then .error .notSameBuilderInstance else .ok ()

/-- Model of `Builder.init_builder_target` (builder.py lines 124-126):
the Initialized token is the instance itself. -/
def Builder.init_builder_target (b : Builder) : Nat :=
  b.selfId

/-- Model of `Builder.fetch_render_context` (builder.py lines 128-139):
identity check, then a deep copy of the cached render context. -/
def Builder.fetch_render_context (f : Nat) (h : Heap) (b : Builder) (target : Nat) :
    Except PyErr (Heap × PyVal) :=
  match Builder._check_see_if_same_builder_instance b target with
  | .error e => .error e
  | .ok _ => deepcopyE f h b.renderContext

/-- Model of the base `Builder._process_template` (builder.py lines
156-178): obtain the template from the capability, render it with the
given context, parse the rendered text, store the result in the
processed slot. -/
def Builder._process_template (f : Nat) (h : Heap) (b : Builder) (context : PyVal) :
    Except PyErr (Heap × Builder) :=
  match readValE f h b.templateGetter.state with
  | .error e => .error e
  | .ok st =>
    match readValE f h context with
    | .error e => .error e
    | .ok ct =>
      let rendered := b.templateGetter.renderOf st ct
      let p := writeTree (b.parse_rendered_template rendered) h
      .ok (p.1, { b with processed := p.2 })

/-- Model of `Builder.process_template` (builder.py lines 141-154):
identity check, then `_process_template(fetch_render_context(target))`,
then return the Processed token (the same underlying reference). -/
def Builder.process_template (f : Nat) (h : Heap) (b : Builder) (target : Nat) :
    Except PyErr (Heap × Builder × Nat) :=
  match Builder._check_see_if_same_builder_instance b target with
  | .error e => .error e
  | .ok _ =>
    match Builder.fetch_render_context f h b target with
    | .error e => .error e
    | .ok (h1, ctxCopy) =>
      match Builder._process_template f h1 b ctxCopy with
      | .error e => .error e
      | .ok (h2, b2) => .ok (h2, b2, target)

/-- Model of `Builder.fetch_processed` (builder.py lines 180-193):
identity check, then a deep copy of the processed slot. -/
def Builder.fetch_processed (f : Nat) (h : Heap) (b : Builder) (target : Nat) :
    Except PyErr (Heap × PyVal) :=
  match Builder._check_see_if_same_builder_instance b target with
  | .error e => .error e
  | .ok _ => deepcopyE f h b.processed

/-- Model of the base `Builder._build` (builder.py lines 208-240):
apply `build_processed` to the (copied) processed value and store the
result in the built slot. -/
def Builder._build (f : Nat) (h : Heap) (b : Builder) (processedArg : PyVal) :
    Except PyErr (Heap × Builder) :=
  match readValE f h processedArg with
  | .error e => .error e
  | .ok pt =>
    let p := writeTree (b.build_processed pt) h
    .ok (p.1, { b with built := p.2 })

/-- Model of `Builder.build` (builder.py lines 195-206): identity check,
then `_build(fetch_processed(target))`, then return the Built token. -/
def Builder.build (f : Nat) (h : Heap) (b : Builder) (target : Nat) :
    Except PyErr (Heap × Builder × Nat) :=
  match Builder._check_see_if_same_builder_instance b target with
  | .error e => .error e
  | .ok _ =>
    match Builder.fetch_processed f h b target with
    | .error e => .error e
    | .ok (h1, pc) =>
      match Builder._build f h1 b pc with
      | .error e => .error e
      | .ok (h2, b2) => .ok (h2, b2, target)

/-- Model of `Builder.fetch_built` (builder.py lines 242-252): identity
check, then a deep copy of the built slot. -/
def Builder.fetch_built (f : Nat) (h : Heap) (b : Builder) (target : Nat) :
    Except PyErr (Heap × PyVal) :=
  match Builder._check_see_if_same_builder_instance b target with
  | .error e => .error e
  | .ok _ => deepcopyE f h b.built

/-- Calls of the staged Builder API, named after the methods of
builder.py. -/
inductive BEvent where
  | initBuilderTarget
  | processTemplate
  | build
  | fetchRenderContext
  | fetchProcessed
  | fetchBuilt
deriving DecidableEq, Repr

/-- Which stage tokens the caller has been handed so far.  Tokens are
never consumed (the NewTypes wrap the same reference), only minted. -/
structure TokenBag where
  hasInitialized : Bool
  hasProcessed : Bool
  hasBuilt : Bool
deriving DecidableEq, Repr

/-- The empty token bag a caller starts from. -/
def TokenBag.start : TokenBag :=
  { hasInitialized := false, hasProcessed := false, hasBuilt := false }

/-- Whether a call can be made with the tokens at hand, per the static
signatures of builder.py (lines 124, 141, 182, 195, 242 together with
the `BuilderTargetAnyState` union at lines 32-34): `process_template`
needs an Initialized token, `build` a Processed token, `fetch_built` a
Built token, `fetch_processed` a Processed or Built token,
`fetch_render_context` any stage token, and `init_builder_target` none. -/
def BEvent.enabled (s : TokenBag) : BEvent → Bool
  | .initBuilderTarget => true
  | .processTemplate => s.hasInitialized
  | .build => s.hasProcessed
  | .fetchRenderContext => s.hasInitialized || s.hasProcessed || s.hasBuilt
  | .fetchProcessed => s.hasProcessed || s.hasBuilt
  | .fetchBuilt => s.hasBuilt

/-- The token a completed call mints: `init_builder_target` returns an
Initialized token, `process_template` a Processed token, `build` a Built
token; the fetch methods mint nothing. -/
def BEvent.mint (s : TokenBag) : BEvent → TokenBag
  | .initBuilderTarget => { s with hasInitialized := true }
  | .processTemplate => { s with hasProcessed := true }
  | .build => { s with hasBuilt := true }
  | .fetchRenderContext => s
  | .fetchProcessed => s
  | .fetchBuilt => s

/-- A call sequence that type-checks: each call's token argument was
minted by an earlier completed call. -/
inductive ValidTrace : TokenBag → List BEvent → Prop where
  | nil (s : TokenBag) : ValidTrace s []
  | cons (s : TokenBag) (e : BEvent) (es : List BEvent) :
      BEvent.enabled s e = true → ValidTrace (BEvent.mint s e) es → ValidTrace s (e :: es)

/-- A minimal concrete template getter for witnesses. -/
def trivialTemplateGetter : TemplateGetter :=
  { state := .vnone, renderOf := fun _ _ => "" }

/-- A minimal concrete Builder instance with identity `n`. -/
def trivialBuilder (n : Nat) : Builder :=
  { selfId := n, config := Config.mkConfig .vnone [], renderContext := .vnone,
    templateGetter := trivialTemplateGetter, parse_rendered_template := fun _ => .tnone,
    build_processed := fun _ => .tnone, processed := .vnone, built := .vnone }

/-- The empty heap. -/
def emptyHeap : Heap := { next := 0, mem := [] }

/-- Structural values of a record's fields, read in declaration order. -/
def recordReads (f : Nat) (h : Heap) : List (String × PyVal) → Option (List (String × Tree))
  | [] => some []
  | (n, v) :: rest =>
    match readValP f (fun _ => true) h v with
    | none => none
    | some t =>
      match recordReads f h rest with
      | none => none
      | some nts => some ((n, t) :: nts)

/-- The dict chain with the given string keys and values. -/
def dictChainOf : List (String × Tree) → Tree
  | [] => .tdnil
  | (n, t) :: rest => .tdcons (.tstr n) t (dictChainOf rest)

/-- Observation helper: the structural value `raw_config_dict` returns. -/
def fetchRawTree (f : Nat) (h : Heap) (c : ConfigObj) : Option Tree :=
  match Config.raw_config_dict f h c with
  | .ok p => readValP f (fun _ => true) p.1 p.2
  | .error _ => none

/-- Observation helper: the structural value `get_render_context`
returns. -/
def renderContextTreeOf (f : Nat) (h : Heap) (c : ConfigObj) : Option Tree :=
  match Config.get_render_context f h c with
  | .ok p => readValP f (fun _ => true) p.1 p.2
  | .error _ => none

/-- A heap holding the caller's raw mapping `{"x": 1}` at address 0. -/
def hC5 : Heap := { next := 1, mem := [(0, .odict [(.vstr "x", .vint 1)])] }

/-- A Config built over the mapping at address 0, with one int field. -/
def cC5 : ConfigObj := Config.mkConfig (.vref 0) [{ name := "x", ty := .tyInt }]

/-- The caller mutates the original mapping in place to `{"x": 2}`. -/
def hC5m : Heap := hC5.update 0 (.odict [(.vstr "x", .vint 2)])

/-- A heap holding the raw mapping `{"foo": "FOO"}` at address 0. -/
def hC6 : Heap := { next := 1, mem := [(0, .odict [(.vstr "foo", .vstr "FOO")])] }

/-- A Config over that mapping on which `load_config` has not run. -/
def cC6 : ConfigObj := Config.mkConfig (.vref 0) [{ name := "foo", ty := .tyStr }]

/-- A heap holding the raw mapping `{"foo": 5}` at address 0. -/
def hC7 : Heap := { next := 1, mem := [(0, .odict [(.vstr "foo", .vint 5)])] }

/-- A Config whose record declares `foo: str`, loaded from a mapping
whose `foo` is an int. -/
def cC7 : ConfigObj := Config.mkConfig (.vref 0) [{ name := "foo", ty := .tyStr }]

/-- A heap holding the raw mapping `{"foo": "FOO", "bar": 5}` at
address 0 (the spec's Scenario 1 input). -/
def hC8 : Heap :=
  { next := 1, mem := [(0, .odict [(.vstr "foo", .vstr "FOO"), (.vstr "bar", .vint 5)])] }

/-- A Config over that mapping with record fields `(foo: str, bar: int)`. -/
def cC8 : ConfigObj :=
  Config.mkConfig (.vref 0) [{ name := "foo", ty := .tyStr }, { name := "bar", ty := .tyInt }]

/-- Concrete heap for the fetch-copy scenario: one dict cell at address 0. -/
def hC9 : Heap := { next := 1, mem := [(0, .odict [])] }

/-- Concrete builder whose cached render context is the dict at address 0. -/
def bC9 : Builder :=
  { selfId := 7, config := Config.mkConfig .vnone [], renderContext := .vref 0,
    templateGetter := trivialTemplateGetter, parse_rendered_template := fun _ => .tnone,
    build_processed := fun _ => .tnone, processed := .vnone, built := .vnone }

/-- Concrete heap for the process-frame scenario: a one-entry dict at
address 0 serving as cached render context. -/
def hC10 : Heap := { next := 1, mem := [(0, .odict [(.vstr "k", .vint 1)])] }

/-- Concrete builder caching the dict at address 0 as render context. -/
def bC10 : Builder :=
  { selfId := 3, config := Config.mkConfig .vnone [], renderContext := .vref 0,
    templateGetter := trivialTemplateGetter, parse_rendered_template := fun _ => .tnone,
    build_processed := fun _ => .tnone, processed := .vnone, built := .vnone }

/-- Concrete pre-construction heap: the caller's raw mapping
`{"foo": 7}` at address 0. -/
def hC3 : Heap := { next := 1, mem := [(0, .odict [(.vstr "foo", .vint 7)])] }

/-- The caller's Config over that mapping, with record field `foo: int`. -/
def cC3 : ConfigObj := Config.mkConfig (.vref 0) [{ name := "foo", ty := .tyInt }]

/-- The heap and builder produced by a concrete `Builder.__init__`. -/
def resC3 : Heap × Builder :=
  match Builder.init 2 hC3 5 cC3 trivialTemplateGetter (fun _ => .tnone) (fun _ => .tnone) with
  | .ok p => p
  | .error _ => (emptyHeap, trivialBuilder 0)

/-- Concrete heap for the processing scenario: an empty dict at
address 0 as cached render context. -/
def hC4 : Heap := { next := 1, mem := [(0, .odict [])] }

/-- Concrete builder whose template renders to `"T"` and whose parser
wraps the rendered text as a string value. -/
def bC4 : Builder :=
  { selfId := 2, config := Config.mkConfig .vnone [], renderContext := .vref 0,
    templateGetter := { state := .vnone, renderOf := fun _ _ => "T" },
    parse_rendered_template := fun s => .tstr s,
    build_processed := fun _ => .tnone, processed := .vnone, built := .vnone }

theorem find_addr_eq_some {l : List (Addr × PyObj)} {a : Addr} {p : Addr × PyObj}
    (hf : l.find? (fun q => q.1 == a) = some p) : p ∈ l ∧ p.1 = a := by
  induction l with
  | nil => simp [List.find?] at hf
  | cons q l ih =>
    rw [List.find?] at hf
    by_cases hq : q.1 = a
    · simp only [hq, beq_self_eq_true] at hf
      cases hf
      exact ⟨List.mem_cons_self _ _, hq⟩
    · have : (q.1 == a) = false := by simp [hq]
      rw [this] at hf
      rcases ih hf with ⟨hm, he⟩
      exact ⟨List.mem_cons_of_mem _ hm, he⟩

theorem Heap.lookup_lt_next {h : Heap} (hwf : h.wf) {a : Addr} {o : PyObj}
    (hl : h.lookup a = some o) : a < h.next := by
  unfold Heap.lookup at hl
  cases hf : h.mem.find? (fun p => p.1 == a) with
  | none => simp [hf] at hl
  | some p =>
    rcases find_addr_eq_some hf with ⟨hmem, he⟩
    have := hwf p hmem
    exact he ▸ this

theorem Heap.wf_alloc {h : Heap} (hwf : h.wf) (o : PyObj) : (h.alloc o).1.wf := by
  intro p hp
  simp only [Heap.alloc, List.mem_cons] at hp
  rcases hp with hp | hp
  · subst hp; exact Nat.lt_succ_self _
  · exact Nat.lt_succ_of_lt (hwf p hp)

theorem Heap.alloc_next (h : Heap) (o : PyObj) : (h.alloc o).1.next = h.next + 1 := rfl

theorem Heap.lookup_alloc_self (h : Heap) (o : PyObj) :
    (h.alloc o).1.lookup h.next = some o := by
  simp [Heap.alloc, Heap.lookup, List.find?]

theorem Heap.lookup_alloc_ne (h : Heap) (o : PyObj) {a : Addr} (hne : a ≠ h.next) :
    (h.alloc o).1.lookup a = h.lookup a := by
  simp only [Heap.alloc, Heap.lookup, List.find?]
  have : (h.next == a) = false := by simp [Ne.symm hne]
  simp [this]

theorem fuelNeed_pos (t : Tree) : 1 ≤ t.fuelNeed := by
  cases t <;> simp [Tree.fuelNeed]

theorem chainNeed_tdcons (k v r : Tree) :
    Tree.chainNeed (.tdcons k v r) = max (max k.fuelNeed v.fuelNeed) r.chainNeed := by
  simp [Tree.chainNeed, Tree.fuelNeed]

theorem chainNeed_tlcons (x r : Tree) :
    Tree.chainNeed (.tlcons x r) = max x.fuelNeed r.chainNeed := by
  simp [Tree.chainNeed, Tree.fuelNeed]

theorem fuelNeed_tdcons (k v r : Tree) :
    Tree.fuelNeed (.tdcons k v r) = Tree.chainNeed (.tdcons k v r) + 1 := by
  simp [Tree.chainNeed, Tree.fuelNeed]

theorem fuelNeed_tlcons (x r : Tree) :
    Tree.fuelNeed (.tlcons x r) = Tree.chainNeed (.tlcons x r) + 1 := by
  simp [Tree.chainNeed, Tree.fuelNeed]

theorem readValP_zero (P : Addr → Bool) (h : Heap) (v : PyVal) :
    readValP 0 P h v = none := by
  cases v <;> simp [readValP]

theorem readValP_vnone (f : Nat) (P : Addr → Bool) (h : Heap) :
    readValP (f + 1) P h .vnone = some .tnone := by
  simp [readValP]

theorem readValP_vint (f : Nat) (P : Addr → Bool) (h : Heap) (n : Int) :
    readValP (f + 1) P h (.vint n) = some (.tint n) := by
  simp [readValP]

theorem readValP_vstr (f : Nat) (P : Addr → Bool) (h : Heap) (s : String) :
    readValP (f + 1) P h (.vstr s) = some (.tstr s) := by
  simp [readValP]

theorem readValP_vref (f : Nat) (P : Addr → Bool) (h : Heap) (a : Addr) :
    readValP (f + 1) P h (.vref a) =
      if P a then
        match h.lookup a with
        | some (.odict es) => readEntriesP f P h es
        | some (.olist xs) => readElemsP f P h xs
        | none => none
      else none := rfl

theorem readEntriesP_nil (f : Nat) (P : Addr → Bool) (h : Heap) :
    readEntriesP f P h [] = some .tdnil := rfl

theorem readEntriesP_cons (f : Nat) (P : Addr → Bool) (h : Heap)
    (k v : PyVal) (rest : List (PyVal × PyVal)) :
    readEntriesP f P h ((k, v) :: rest) =
      (readValP f P h k).bind (fun tk =>
        (readValP f P h v).bind (fun tv =>
          (readEntriesP f P h rest).bind (fun tr =>
            some (.tdcons tk tv tr)))) := by
  rw [readEntriesP]; rfl

theorem readElemsP_nil (f : Nat) (P : Addr → Bool) (h : Heap) :
    readElemsP f P h [] = some .tlnil := rfl

theorem readElemsP_cons (f : Nat) (P : Addr → Bool) (h : Heap)
    (x : PyVal) (rest : List PyVal) :
    readElemsP f P h (x :: rest) =
      (readValP f P h x).bind (fun tx =>
        (readElemsP f P h rest).bind (fun tr =>
          some (.tlcons tx tr))) := by
  rw [readElemsP]; rfl

theorem preserves_refl (P : Addr → Bool) (h : Heap) : preserves P h h :=
  fun _ _ _ ho => ho

/-- Successful readbacks survive any heap evolution that preserves the
cells they dereference. -/
theorem read_stable (f : Nat) (P : Addr → Bool) (h h' : Heap) (hp : preserves P h h') :
    (∀ v t, readValP f P h v = some t → readValP f P h' v = some t) ∧
    (∀ es t, readEntriesP f P h es = some t → readEntriesP f P h' es = some t) ∧
    (∀ xs t, readElemsP f P h xs = some t → readElemsP f P h' xs = some t) := by
  induction f with
  | zero =>
    refine ⟨fun v t hr => ?_, fun es t hr => ?_, fun xs t hr => ?_⟩
    · rw [readValP_zero] at hr; cases hr
    · cases es with
      | nil => rwa [readEntriesP_nil] at hr ⊢
      | cons e rest =>
        obtain ⟨k, v⟩ := e
        rw [readEntriesP_cons] at hr
        rw [readValP_zero] at hr
        cases hr
    · cases xs with
      | nil => rwa [readElemsP_nil] at hr ⊢
      | cons x rest =>
        rw [readElemsP_cons] at hr
        rw [readValP_zero] at hr
        cases hr
  | succ f ih =>
    have hval : ∀ v t, readValP (f + 1) P h v = some t → readValP (f + 1) P h' v = some t := by
      intro v t hr
      cases v with
      | vnone => rwa [readValP_vnone] at hr ⊢
      | vint n => rwa [readValP_vint] at hr ⊢
      | vstr s => rwa [readValP_vstr] at hr ⊢
      | vref a =>
        rw [readValP_vref] at hr ⊢
        by_cases hPa : P a = true
        · simp only [hPa, if_true] at hr ⊢
          cases hlk : h.lookup a with
          | none => rw [hlk] at hr; cases hr
          | some o =>
            rw [hlk] at hr
            rw [hp a hPa o hlk]
            cases o with
            | odict es => exact (ih).2.1 es t hr
            | olist xs => exact (ih).2.2 xs t hr
        · simp only [hPa] at hr
          simp at hr
    have hent : ∀ es t, readEntriesP (f + 1) P h es = some t →
        readEntriesP (f + 1) P h' es = some t := by
      intro es
      induction es with
      | nil => intro t hr; rwa [readEntriesP_nil] at hr ⊢
      | cons e rest ihrest =>
        obtain ⟨k, v⟩ := e
        intro t hr
        rw [readEntriesP_cons] at hr ⊢
        rcases Option.bind_eq_some.mp hr with ⟨tk, hk, hr⟩
        rcases Option.bind_eq_some.mp hr with ⟨tv, hv, hr⟩
        rcases Option.bind_eq_some.mp hr with ⟨tr, hrest, hr⟩
        rw [hval k tk hk, hval v tv hv, ihrest tr hrest]
        exact hr
    have helems : ∀ xs t, readElemsP (f + 1) P h xs = some t →
        readElemsP (f + 1) P h' xs = some t := by
      intro xs
      induction xs with
      | nil => intro t hr; rwa [readElemsP_nil] at hr ⊢
      | cons x rest ihrest =>
        intro t hr
        rw [readElemsP_cons] at hr ⊢
        rcases Option.bind_eq_some.mp hr with ⟨tx, hx, hr⟩
        rcases Option.bind_eq_some.mp hr with ⟨tr, hrest, hr⟩
        rw [hval x tx hx, ihrest tr hrest]
        exact hr
    exact ⟨hval, hent, helems⟩

theorem readValP_stable {f : Nat} {P : Addr → Bool} {h h' : Heap} {v : PyVal} {t : Tree}
    (hp : preserves P h h') (hr : readValP f P h v = some t) :
    readValP f P h' v = some t :=
  (read_stable f P h h' hp).1 v t hr

theorem readEntriesP_stable {f : Nat} {P : Addr → Bool} {h h' : Heap}
    {es : List (PyVal × PyVal)} {t : Tree}
    (hp : preserves P h h') (hr : readEntriesP f P h es = some t) :
    readEntriesP f P h' es = some t :=
  (read_stable f P h h' hp).2.1 es t hr

/-- Weakening the dereference predicate preserves successful readbacks. -/
theorem read_mono_pred (f : Nat) (P Q : Addr → Bool)
    (himp : ∀ a, P a = true → Q a = true) (h : Heap) :
    (∀ v t, readValP f P h v = some t → readValP f Q h v = some t) ∧
    (∀ es t, readEntriesP f P h es = some t → readEntriesP f Q h es = some t) ∧
    (∀ xs t, readElemsP f P h xs = some t → readElemsP f Q h xs = some t) := by
  induction f with
  | zero =>
    refine ⟨fun v t hr => ?_, fun es t hr => ?_, fun xs t hr => ?_⟩
    · rw [readValP_zero] at hr; cases hr
    · cases es with
      | nil => rwa [readEntriesP_nil] at hr ⊢
      | cons e rest =>
        obtain ⟨k, v⟩ := e
        rw [readEntriesP_cons, readValP_zero] at hr; cases hr
    · cases xs with
      | nil => rwa [readElemsP_nil] at hr ⊢
      | cons x rest =>
        rw [readElemsP_cons, readValP_zero] at hr; cases hr
  | succ f ih =>
    have hval : ∀ v t, readValP (f + 1) P h v = some t → readValP (f + 1) Q h v = some t := by
      intro v t hr
      cases v with
      | vnone => rwa [readValP_vnone] at hr ⊢
      | vint n => rwa [readValP_vint] at hr ⊢
      | vstr s => rwa [readValP_vstr] at hr ⊢
      | vref a =>
        rw [readValP_vref] at hr ⊢
        by_cases hPa : P a = true
        · rw [himp a hPa]
          simp only [hPa, if_true] at hr
          cases hlk : h.lookup a with
          | none => rw [hlk] at hr; cases hr
          | some o =>
            rw [hlk] at hr
            simp only [if_true]
            cases o with
            | odict es => exact ih.2.1 es t hr
            | olist xs => exact ih.2.2 xs t hr
        · simp only [hPa] at hr
          simp at hr
    have hent : ∀ es t, readEntriesP (f + 1) P h es = some t →
        readEntriesP (f + 1) Q h es = some t := by
      intro es
      induction es with
      | nil => intro t hr; rwa [readEntriesP_nil] at hr ⊢
      | cons e rest ihrest =>
        obtain ⟨k, v⟩ := e
        intro t hr
        rw [readEntriesP_cons] at hr ⊢
        rcases Option.bind_eq_some.mp hr with ⟨tk, hk, hr⟩
        rcases Option.bind_eq_some.mp hr with ⟨tv, hv, hr⟩
        rcases Option.bind_eq_some.mp hr with ⟨tr, hrest, hr⟩
        rw [hval k tk hk, hval v tv hv, ihrest tr hrest]
        exact hr
    have helems : ∀ xs t, readElemsP (f + 1) P h xs = some t →
        readElemsP (f + 1) Q h xs = some t := by
      intro xs
      induction xs with
      | nil => intro t hr; rwa [readElemsP_nil] at hr ⊢
      | cons x rest ihrest =>
        intro t hr
        rw [readElemsP_cons] at hr ⊢
        rcases Option.bind_eq_some.mp hr with ⟨tx, hx, hr⟩
        rcases Option.bind_eq_some.mp hr with ⟨tr, hrest, hr⟩
        rw [hval x tx hx, ihrest tr hrest]
        exact hr
    exact ⟨hval, hent, helems⟩

theorem readValP_mono_pred {f : Nat} {P Q : Addr → Bool} {h : Heap} {v : PyVal} {t : Tree}
    (himp : ∀ a, P a = true → Q a = true) (hr : readValP f P h v = some t) :
    readValP f Q h v = some t :=
  (read_mono_pred f P Q himp h).1 v t hr

theorem readEntriesP_mono_pred {f : Nat} {P Q : Addr → Bool} {h : Heap}
    {es : List (PyVal × PyVal)} {t : Tree}
    (himp : ∀ a, P a = true → Q a = true) (hr : readEntriesP f P h es = some t) :
    readEntriesP f Q h es = some t :=
  (read_mono_pred f P Q himp h).2.1 es t hr

/-- Increasing the fuel preserves successful readbacks. -/
theorem read_mono_fuel (f : Nat) :
    ∀ g, f ≤ g →
    (∀ P h v t, readValP f P h v = some t → readValP g P h v = some t) ∧
    (∀ P h es t, readEntriesP f P h es = some t → readEntriesP g P h es = some t) ∧
    (∀ P h xs t, readElemsP f P h xs = some t → readElemsP g P h xs = some t) := by
  induction f with
  | zero =>
    intro g hg
    refine ⟨fun P h v t hr => ?_, fun P h es t hr => ?_, fun P h xs t hr => ?_⟩
    · rw [readValP_zero] at hr; cases hr
    · cases es with
      | nil => rwa [readEntriesP_nil] at hr ⊢
      | cons e rest =>
        obtain ⟨k, v⟩ := e
        rw [readEntriesP_cons, readValP_zero] at hr; cases hr
    · cases xs with
      | nil => rwa [readElemsP_nil] at hr ⊢
      | cons x rest =>
        rw [readElemsP_cons, readValP_zero] at hr; cases hr
  | succ f ih =>
    intro g hg
    cases g with
    | zero => omega
    | succ g =>
      have hfg : f ≤ g := Nat.le_of_succ_le_succ hg
      have hval : ∀ P h v t, readValP (f + 1) P h v = some t →
          readValP (g + 1) P h v = some t := by
        intro P h v t hr
        cases v with
        | vnone => rwa [readValP_vnone] at hr ⊢
        | vint n => rwa [readValP_vint] at hr ⊢
        | vstr s => rwa [readValP_vstr] at hr ⊢
        | vref a =>
          rw [readValP_vref] at hr ⊢
          by_cases hPa : P a = true
          · simp only [hPa, if_true] at hr ⊢
            cases hlk : h.lookup a with
            | none => rw [hlk] at hr; cases hr
            | some o =>
              rw [hlk] at hr
              cases o with
              | odict es => exact (ih g hfg).2.1 P h es t hr
              | olist xs => exact (ih g hfg).2.2 P h xs t hr
          · simp only [hPa] at hr
            simp at hr
      have hent : ∀ P h es t, readEntriesP (f + 1) P h es = some t →
          readEntriesP (g + 1) P h es = some t := by
        intro P h es
        induction es with
        | nil => intro t hr; rwa [readEntriesP_nil] at hr ⊢
        | cons e rest ihrest =>
          obtain ⟨k, v⟩ := e
          intro t hr
          rw [readEntriesP_cons] at hr ⊢
          rcases Option.bind_eq_some.mp hr with ⟨tk, hk, hr⟩
          rcases Option.bind_eq_some.mp hr with ⟨tv, hv, hr⟩
          rcases Option.bind_eq_some.mp hr with ⟨tr, hrest, hr⟩
          rw [hval P h k tk hk, hval P h v tv hv, ihrest tr hrest]
          exact hr
      have helems : ∀ P h xs t, readElemsP (f + 1) P h xs = some t →
          readElemsP (g + 1) P h xs = some t := by
        intro P h xs
        induction xs with
        | nil => intro t hr; rwa [readElemsP_nil] at hr ⊢
        | cons x rest ihrest =>
          intro t hr
          rw [readElemsP_cons] at hr ⊢
          rcases Option.bind_eq_some.mp hr with ⟨tx, hx, hr⟩
          rcases Option.bind_eq_some.mp hr with ⟨tr, hrest, hr⟩
          rw [hval P h x tx hx, ihrest tr hrest]
          exact hr
      exact ⟨hval, hent, helems⟩

theorem readValP_mono_fuel {f g : Nat} {P : Addr → Bool} {h : Heap} {v : PyVal} {t : Tree}
    (hfg : f ≤ g) (hr : readValP f P h v = some t) : readValP g P h v = some t :=
  (read_mono_fuel f g hfg).1 P h v t hr

/-- In a well-formed heap, a successful readback dereferences only
addresses below the allocation counter. -/
theorem read_bound (f : Nat) (P : Addr → Bool) (h : Heap) (hwf : h.wf) :
    (∀ v t, readValP f P h v = some t →
      readValP f (fun a => P a && belowB h.next a) h v = some t) ∧
    (∀ es t, readEntriesP f P h es = some t →
      readEntriesP f (fun a => P a && belowB h.next a) h es = some t) ∧
    (∀ xs t, readElemsP f P h xs = some t →
      readElemsP f (fun a => P a && belowB h.next a) h xs = some t) := by
  induction f with
  | zero =>
    refine ⟨fun v t hr => ?_, fun es t hr => ?_, fun xs t hr => ?_⟩
    · rw [readValP_zero] at hr; cases hr
    · cases es with
      | nil => rwa [readEntriesP_nil] at hr ⊢
      | cons e rest =>
        obtain ⟨k, v⟩ := e
        rw [readEntriesP_cons, readValP_zero] at hr; cases hr
    · cases xs with
      | nil => rwa [readElemsP_nil] at hr ⊢
      | cons x rest =>
        rw [readElemsP_cons, readValP_zero] at hr; cases hr
  | succ f ih =>
    have hval : ∀ v t, readValP (f + 1) P h v = some t →
        readValP (f + 1) (fun a => P a && belowB h.next a) h v = some t := by
      intro v t hr
      cases v with
      | vnone => rwa [readValP_vnone] at hr ⊢
      | vint n => rwa [readValP_vint] at hr ⊢
      | vstr s => rwa [readValP_vstr] at hr ⊢
      | vref a =>
        rw [readValP_vref] at hr ⊢
        by_cases hPa : P a = true
        · simp only [hPa, if_true] at hr
          cases hlk : h.lookup a with
          | none => rw [hlk] at hr; cases hr
          | some o =>
            have hlt : a < h.next := Heap.lookup_lt_next hwf hlk
            have : (P a && belowB h.next a) = true := by
              simp [hPa, belowB, hlt]
            rw [this]
            simp only [if_true]
            rw [hlk] at hr
            cases o with
            | odict es => exact ih.2.1 es t hr
            | olist xs => exact ih.2.2 xs t hr
        · simp only [hPa] at hr
          simp at hr
    have hent : ∀ es t, readEntriesP (f + 1) P h es = some t →
        readEntriesP (f + 1) (fun a => P a && belowB h.next a) h es = some t := by
      intro es
      induction es with
      | nil => intro t hr; rwa [readEntriesP_nil] at hr ⊢
      | cons e rest ihrest =>
        obtain ⟨k, v⟩ := e
        intro t hr
        rw [readEntriesP_cons] at hr ⊢
        rcases Option.bind_eq_some.mp hr with ⟨tk, hk, hr⟩
        rcases Option.bind_eq_some.mp hr with ⟨tv, hv, hr⟩
        rcases Option.bind_eq_some.mp hr with ⟨tr, hrest, hr⟩
        rw [hval k tk hk, hval v tv hv, ihrest tr hrest]
        exact hr
    have helems : ∀ xs t, readElemsP (f + 1) P h xs = some t →
        readElemsP (f + 1) (fun a => P a && belowB h.next a) h xs = some t := by
      intro xs
      induction xs with
      | nil => intro t hr; rwa [readElemsP_nil] at hr ⊢
      | cons x rest ihrest =>
        intro t hr
        rw [readElemsP_cons] at hr ⊢
        rcases Option.bind_eq_some.mp hr with ⟨tx, hx, hr⟩
        rcases Option.bind_eq_some.mp hr with ⟨tr, hrest, hr⟩
        rw [hval x tx hx, ihrest tr hrest]
        exact hr
    exact ⟨hval, hent, helems⟩

theorem isDChainWF_tdnil : Tree.isDChainWF .tdnil = true := rfl

theorem isLChainWF_tlnil : Tree.isLChainWF .tlnil = true := rfl

theorem isDChainWF_tdcons (k v r : Tree) :
    Tree.isDChainWF (.tdcons k v r) = (k.isWF && v.isWF && Tree.isDChainWF r) := by
  cases hk : k.isWF <;> cases hv : v.isWF <;> cases hr1 : r.isWF <;> cases hr2 : r.isDHead <;>
    simp [Tree.isDChainWF, Tree.isWF, Tree.isDHead, hk, hv, hr1, hr2]

theorem isLChainWF_tlcons (x r : Tree) :
    Tree.isLChainWF (.tlcons x r) = (x.isWF && Tree.isLChainWF r) := by
  cases hx : x.isWF <;> cases hr1 : r.isWF <;> cases hr2 : r.isLHead <;>
    simp [Tree.isLChainWF, Tree.isWF, Tree.isLHead, hx, hr1, hr2]

theorem isWF_of_isDChainWF {t : Tree} (hc : t.isDChainWF = true) : t.isWF = true := by
  rw [Tree.isDChainWF, Bool.and_eq_true] at hc
  exact hc.1

theorem isWF_of_isLChainWF {t : Tree} (hc : t.isLChainWF = true) : t.isWF = true := by
  rw [Tree.isLChainWF, Bool.and_eq_true] at hc
  exact hc.1

theorem isDChainWF_of_isWF_dict {k v r : Tree}
    (hWF : Tree.isWF (.tdcons k v r) = true) : Tree.isDChainWF (.tdcons k v r) = true := by
  rw [Tree.isDChainWF, Bool.and_eq_true]
  exact ⟨hWF, rfl⟩

theorem isLChainWF_of_isWF_list {x r : Tree}
    (hWF : Tree.isWF (.tlcons x r) = true) : Tree.isLChainWF (.tlcons x r) = true := by
  rw [Tree.isLChainWF, Bool.and_eq_true]
  exact ⟨hWF, rfl⟩

theorem readEntriesP_shape {f : Nat} {P : Addr → Bool} {h : Heap}
    {es : List (PyVal × PyVal)} {t : Tree} (hr : readEntriesP f P h es = some t) :
    t = .tdnil ∨ ∃ k v r, t = .tdcons k v r := by
  cases es with
  | nil => rw [readEntriesP_nil] at hr; cases hr; exact Or.inl rfl
  | cons e rest =>
    obtain ⟨k, v⟩ := e
    rw [readEntriesP_cons] at hr
    rcases Option.bind_eq_some.mp hr with ⟨tk, _, hr⟩
    rcases Option.bind_eq_some.mp hr with ⟨tv, _, hr⟩
    rcases Option.bind_eq_some.mp hr with ⟨tr, _, hr⟩
    cases hr
    exact Or.inr ⟨tk, tv, tr, rfl⟩

theorem readElemsP_shape {f : Nat} {P : Addr → Bool} {h : Heap}
    {xs : List PyVal} {t : Tree} (hr : readElemsP f P h xs = some t) :
    t = .tlnil ∨ ∃ x r, t = .tlcons x r := by
  cases xs with
  | nil => rw [readElemsP_nil] at hr; cases hr; exact Or.inl rfl
  | cons x rest =>
    rw [readElemsP_cons] at hr
    rcases Option.bind_eq_some.mp hr with ⟨tx, _, hr⟩
    rcases Option.bind_eq_some.mp hr with ⟨tr, _, hr⟩
    cases hr
    exact Or.inr ⟨tx, tr, rfl⟩

/-- The fuel with which a readback succeeded bounds the fuel the
resulting tree needs. -/
theorem read_fuelNeed (f : Nat) :
    (∀ P h v t, readValP f P h v = some t → t.fuelNeed ≤ f) ∧
    (∀ P h es t, readEntriesP f P h es = some t → t.chainNeed ≤ f) ∧
    (∀ P h xs t, readElemsP f P h xs = some t → t.chainNeed ≤ f) := by
  induction f with
  | zero =>
    refine ⟨fun P h v t hr => ?_, fun P h es t hr => ?_, fun P h xs t hr => ?_⟩
    · rw [readValP_zero] at hr; cases hr
    · cases es with
      | nil =>
        rw [readEntriesP_nil] at hr; cases hr; simp [Tree.chainNeed, Tree.fuelNeed]
      | cons e rest =>
        obtain ⟨k, v⟩ := e
        rw [readEntriesP_cons, readValP_zero] at hr; cases hr
    · cases xs with
      | nil =>
        rw [readElemsP_nil] at hr; cases hr; simp [Tree.chainNeed, Tree.fuelNeed]
      | cons x rest =>
        rw [readElemsP_cons, readValP_zero] at hr; cases hr
  | succ f ih =>
    have hval : ∀ P h v t, readValP (f + 1) P h v = some t → t.fuelNeed ≤ f + 1 := by
      intro P h v t hr
      cases v with
      | vnone => rw [readValP_vnone] at hr; cases hr; simp [Tree.fuelNeed]
      | vint n => rw [readValP_vint] at hr; cases hr; simp [Tree.fuelNeed]
      | vstr s => rw [readValP_vstr] at hr; cases hr; simp [Tree.fuelNeed]
      | vref a =>
        rw [readValP_vref] at hr
        by_cases hPa : P a = true
        · simp only [hPa, if_true] at hr
          cases hlk : h.lookup a with
          | none => rw [hlk] at hr; cases hr
          | some o =>
            rw [hlk] at hr
            cases o with
            | odict es =>
              have hc := ih.2.1 P h es t hr
              rcases readEntriesP_shape hr with he | ⟨k, v, r, he⟩
              · subst he; simp [Tree.fuelNeed]
              · subst he
                rw [fuelNeed_tdcons]
                omega
            | olist xs =>
              have hc := ih.2.2 P h xs t hr
              rcases readElemsP_shape hr with he | ⟨x, r, he⟩
              · subst he; simp [Tree.fuelNeed]
              · subst he
                rw [fuelNeed_tlcons]
                omega
        · simp only [hPa] at hr
          simp at hr
    have hent : ∀ P h es t, readEntriesP (f + 1) P h es = some t → t.chainNeed ≤ f + 1 := by
      intro P h es
      induction es with
      | nil =>
        intro t hr
        rw [readEntriesP_nil] at hr; cases hr; simp [Tree.chainNeed, Tree.fuelNeed]
      | cons e rest ihrest =>
        obtain ⟨k, v⟩ := e
        intro t hr
        rw [readEntriesP_cons] at hr
        rcases Option.bind_eq_some.mp hr with ⟨tk, hk, hr⟩
        rcases Option.bind_eq_some.mp hr with ⟨tv, hv, hr⟩
        rcases Option.bind_eq_some.mp hr with ⟨tr, hrest, hr⟩
        cases hr
        have h1 := hval P h k tk hk
        have h2 := hval P h v tv hv
        have h3 := ihrest tr hrest
        rw [chainNeed_tdcons]
        omega
    have helems : ∀ P h xs t, readElemsP (f + 1) P h xs = some t → t.chainNeed ≤ f + 1 := by
      intro P h xs
      induction xs with
      | nil =>
        intro t hr
        rw [readElemsP_nil] at hr; cases hr; simp [Tree.chainNeed, Tree.fuelNeed]
      | cons x rest ihrest =>
        intro t hr
        rw [readElemsP_cons] at hr
        rcases Option.bind_eq_some.mp hr with ⟨tx, hx, hr⟩
        rcases Option.bind_eq_some.mp hr with ⟨tr, hrest, hr⟩
        cases hr
        have h1 := hval P h x tx hx
        have h2 := ihrest tr hrest
        rw [chainNeed_tlcons]
        omega
    exact ⟨hval, hent, helems⟩

/-- Readbacks produce wellformed trees. -/
theorem read_isWF (f : Nat) :
    (∀ P h v t, readValP f P h v = some t → t.isWF = true) ∧
    (∀ P h es t, readEntriesP f P h es = some t → t.isDChainWF = true) ∧
    (∀ P h xs t, readElemsP f P h xs = some t → t.isLChainWF = true) := by
  induction f with
  | zero =>
    refine ⟨fun P h v t hr => ?_, fun P h es t hr => ?_, fun P h xs t hr => ?_⟩
    · rw [readValP_zero] at hr; cases hr
    · cases es with
      | nil => rw [readEntriesP_nil] at hr; cases hr; exact isDChainWF_tdnil
      | cons e rest =>
        obtain ⟨k, v⟩ := e
        rw [readEntriesP_cons, readValP_zero] at hr; cases hr
    · cases xs with
      | nil => rw [readElemsP_nil] at hr; cases hr; exact isLChainWF_tlnil
      | cons x rest =>
        rw [readElemsP_cons, readValP_zero] at hr; cases hr
  | succ f ih =>
    have hval : ∀ P h v t, readValP (f + 1) P h v = some t → t.isWF = true := by
      intro P h v t hr
      cases v with
      | vnone => rw [readValP_vnone] at hr; cases hr; simp [Tree.isWF]
      | vint n => rw [readValP_vint] at hr; cases hr; simp [Tree.isWF]
      | vstr s => rw [readValP_vstr] at hr; cases hr; simp [Tree.isWF]
      | vref a =>
        rw [readValP_vref] at hr
        by_cases hPa : P a = true
        · simp only [hPa, if_true] at hr
          cases hlk : h.lookup a with
          | none => rw [hlk] at hr; cases hr
          | some o =>
            rw [hlk] at hr
            cases o with
            | odict es =>
              have hc := ih.2.1 P h es t hr
              rcases readEntriesP_shape hr with he | ⟨k, v, r, he⟩
              · subst he; simp [Tree.isWF]
              · subst he
                exact isWF_of_isDChainWF hc
            | olist xs =>
              have hc := ih.2.2 P h xs t hr
              rcases readElemsP_shape hr with he | ⟨x, r, he⟩
              · subst he; simp [Tree.isWF]
              · subst he
                exact isWF_of_isLChainWF hc
        · simp only [hPa] at hr
          simp at hr
    have hent : ∀ P h es t, readEntriesP (f + 1) P h es = some t → t.isDChainWF = true := by
      intro P h es
      induction es with
      | nil => intro t hr; rw [readEntriesP_nil] at hr; cases hr; exact isDChainWF_tdnil
      | cons e rest ihrest =>
        obtain ⟨k, v⟩ := e
        intro t hr
        rw [readEntriesP_cons] at hr
        rcases Option.bind_eq_some.mp hr with ⟨tk, hk, hr⟩
        rcases Option.bind_eq_some.mp hr with ⟨tv, hv, hr⟩
        rcases Option.bind_eq_some.mp hr with ⟨tr, hrest, hr⟩
        cases hr
        rw [isDChainWF_tdcons]
        simp [hval P h k tk hk, hval P h v tv hv, ihrest tr hrest]
    have helems : ∀ P h xs t, readElemsP (f + 1) P h xs = some t → t.isLChainWF = true := by
      intro P h xs
      induction xs with
      | nil => intro t hr; rw [readElemsP_nil] at hr; cases hr; exact isLChainWF_tlnil
      | cons x rest ihrest =>
        intro t hr
        rw [readElemsP_cons] at hr
        rcases Option.bind_eq_some.mp hr with ⟨tx, hx, hr⟩
        rcases Option.bind_eq_some.mp hr with ⟨tr, hrest, hr⟩
        cases hr
        rw [isLChainWF_tlcons]
        simp [hval P h x tx hx, ihrest tr hrest]
    exact ⟨hval, hent, helems⟩

/-- Writers only allocate: the counter grows, cells below the old
counter are untouched, and wellformedness is preserved.  Generic form
over the member writer. -/
theorem writeEntriesAux_base (wv : Tree → Heap → Heap × PyVal)
    (hwv : ∀ (t : Tree) (h : Heap),
      h.next ≤ (wv t h).1.next ∧
      (∀ a, a < h.next → (wv t h).1.lookup a = h.lookup a) ∧
      (h.wf → (wv t h).1.wf)) :
    ∀ (t : Tree) (h : Heap),
      h.next ≤ (writeEntriesAux wv t h).1.next ∧
      (∀ a, a < h.next → (writeEntriesAux wv t h).1.lookup a = h.lookup a) ∧
      (h.wf → (writeEntriesAux wv t h).1.wf) := by
  intro t
  induction t with
  | tdcons k v r ihk ihv ihr =>
    intro h
    have he : writeEntriesAux wv (.tdcons k v r) h =
        ((writeEntriesAux wv r (wv v (wv k h).1).1).1,
          ((wv k h).2, (wv v (wv k h).1).2) :: (writeEntriesAux wv r (wv v (wv k h).1).1).2) :=
      rfl
    rw [he]
    have h1 := hwv k h
    have h2 := hwv v (wv k h).1
    have h3 := ihr (wv v (wv k h).1).1
    refine ⟨le_trans h1.1 (le_trans h2.1 h3.1), fun a ha => ?_,
      fun hwf => h3.2.2 (h2.2.2 (h1.2.2 hwf))⟩
    rw [h3.2.1 a (lt_of_lt_of_le ha (le_trans h1.1 h2.1)),
      h2.2.1 a (lt_of_lt_of_le ha h1.1), h1.2.1 a ha]
  | tnone => exact fun h => ⟨Nat.le_refl _, fun a _ => rfl, id⟩
  | tint n => exact fun h => ⟨Nat.le_refl _, fun a _ => rfl, id⟩
  | tstr sx => exact fun h => ⟨Nat.le_refl _, fun a _ => rfl, id⟩
  | tdnil => exact fun h => ⟨Nat.le_refl _, fun a _ => rfl, id⟩
  | tlnil => exact fun h => ⟨Nat.le_refl _, fun a _ => rfl, id⟩
  | tlcons x r ihx ihr => exact fun h => ⟨Nat.le_refl _, fun a _ => rfl, id⟩

/-- Counterpart of `writeEntriesAux_base` for list-element chains. -/
theorem writeElemsAux_base (wv : Tree → Heap → Heap × PyVal)
    (hwv : ∀ (t : Tree) (h : Heap),
      h.next ≤ (wv t h).1.next ∧
      (∀ a, a < h.next → (wv t h).1.lookup a = h.lookup a) ∧
      (h.wf → (wv t h).1.wf)) :
    ∀ (t : Tree) (h : Heap),
      h.next ≤ (writeElemsAux wv t h).1.next ∧
      (∀ a, a < h.next → (writeElemsAux wv t h).1.lookup a = h.lookup a) ∧
      (h.wf → (writeElemsAux wv t h).1.wf) := by
  intro t
  induction t with
  | tlcons x r ihx ihr =>
    intro h
    have he : writeElemsAux wv (.tlcons x r) h =
        ((writeElemsAux wv r (wv x h).1).1,
          (wv x h).2 :: (writeElemsAux wv r (wv x h).1).2) := rfl
    rw [he]
    have h1 := hwv x h
    have h2 := ihr (wv x h).1
    refine ⟨le_trans h1.1 h2.1, fun a ha => ?_, fun hwf => h2.2.2 (h1.2.2 hwf)⟩
    rw [h2.2.1 a (lt_of_lt_of_le ha h1.1), h1.2.1 a ha]
  | tnone => exact fun h => ⟨Nat.le_refl _, fun a _ => rfl, id⟩
  | tint n => exact fun h => ⟨Nat.le_refl _, fun a _ => rfl, id⟩
  | tstr sx => exact fun h => ⟨Nat.le_refl _, fun a _ => rfl, id⟩
  | tdnil => exact fun h => ⟨Nat.le_refl _, fun a _ => rfl, id⟩
  | tlnil => exact fun h => ⟨Nat.le_refl _, fun a _ => rfl, id⟩
  | tdcons k v r ihk ihv ihr => exact fun h => ⟨Nat.le_refl _, fun a _ => rfl, id⟩

/-- Base heap facts for the tree writer at any fuel. -/
theorem writeValF_base (F : Nat) :
    ∀ (t : Tree) (h : Heap),
      h.next ≤ (writeValF F t h).1.next ∧
      (∀ a, a < h.next → (writeValF F t h).1.lookup a = h.lookup a) ∧
      (h.wf → (writeValF F t h).1.wf) := by
  induction F with
  | zero => exact fun t h => ⟨Nat.le_refl _, fun a _ => rfl, id⟩
  | succ F ih =>
    intro t h
    cases t with
    | tnone => exact ⟨Nat.le_refl _, fun a _ => rfl, id⟩
    | tint n => exact ⟨Nat.le_refl _, fun a _ => rfl, id⟩
    | tstr sx => exact ⟨Nat.le_refl _, fun a _ => rfl, id⟩
    | tdnil =>
      exact ⟨Nat.le_succ _, fun a ha => Heap.lookup_alloc_ne h _ (Nat.ne_of_lt ha),
        fun hwf => Heap.wf_alloc hwf _⟩
    | tlnil =>
      exact ⟨Nat.le_succ _, fun a ha => Heap.lookup_alloc_ne h _ (Nat.ne_of_lt ha),
        fun hwf => Heap.wf_alloc hwf _⟩
    | tdcons k v r =>
      have hent := writeEntriesAux_base (writeValF F) ih (.tdcons k v r) h
      have he : writeValF (F + 1) (.tdcons k v r) h =
          (writeEntriesAux (writeValF F) (.tdcons k v r) h).1.alloc
            (.odict (writeEntriesAux (writeValF F) (.tdcons k v r) h).2) := rfl
      rw [he]
      refine ⟨le_trans hent.1 (Nat.le_succ _), fun a ha => ?_,
        fun hwf => Heap.wf_alloc (hent.2.2 hwf) _⟩
      rw [Heap.lookup_alloc_ne _ _ (Nat.ne_of_lt (lt_of_lt_of_le ha hent.1))]
      exact hent.2.1 a ha
    | tlcons x r =>
      have hent := writeElemsAux_base (writeValF F) ih (.tlcons x r) h
      have he : writeValF (F + 1) (.tlcons x r) h =
          (writeElemsAux (writeValF F) (.tlcons x r) h).1.alloc
            (.olist (writeElemsAux (writeValF F) (.tlcons x r) h).2) := rfl
      rw [he]
      refine ⟨le_trans hent.1 (Nat.le_succ _), fun a ha => ?_,
        fun hwf => Heap.wf_alloc (hent.2.2 hwf) _⟩
      rw [Heap.lookup_alloc_ne _ _ (Nat.ne_of_lt (lt_of_lt_of_le ha hent.1))]
      exact hent.2.1 a ha

theorem writeValF_next {F : Nat} {t : Tree} {h : Heap} : h.next ≤ (writeValF F t h).1.next :=
  (writeValF_base F t h).1

theorem writeValF_agree {F : Nat} {t : Tree} {h : Heap} {a : Addr} (ha : a < h.next) :
    (writeValF F t h).1.lookup a = h.lookup a :=
  (writeValF_base F t h).2.1 a ha

theorem writeValF_wf {F : Nat} {t : Tree} {h : Heap} (hwf : h.wf) : (writeValF F t h).1.wf :=
  (writeValF_base F t h).2.2 hwf

theorem writeEntriesF_next {F : Nat} {t : Tree} {h : Heap} :
    h.next ≤ (writeEntriesF F t h).1.next :=
  (writeEntriesAux_base (writeValF F) (writeValF_base F) t h).1

theorem writeEntriesF_agree {F : Nat} {t : Tree} {h : Heap} {a : Addr} (ha : a < h.next) :
    (writeEntriesF F t h).1.lookup a = h.lookup a :=
  (writeEntriesAux_base (writeValF F) (writeValF_base F) t h).2.1 a ha

theorem writeEntriesF_wf {F : Nat} {t : Tree} {h : Heap} (hwf : h.wf) :
    (writeEntriesF F t h).1.wf :=
  (writeEntriesAux_base (writeValF F) (writeValF_base F) t h).2.2 hwf

theorem writeElemsF_next {F : Nat} {t : Tree} {h : Heap} :
    h.next ≤ (writeElemsF F t h).1.next :=
  (writeElemsAux_base (writeValF F) (writeValF_base F) t h).1

theorem writeElemsF_agree {F : Nat} {t : Tree} {h : Heap} {a : Addr} (ha : a < h.next) :
    (writeElemsF F t h).1.lookup a = h.lookup a :=
  (writeElemsAux_base (writeValF F) (writeValF_base F) t h).2.1 a ha

theorem writeElemsF_wf {F : Nat} {t : Tree} {h : Heap} (hwf : h.wf) :
    (writeElemsF F t h).1.wf :=
  (writeElemsAux_base (writeValF F) (writeValF_base F) t h).2.2 hwf

/-- Any heap evolution that leaves the cells below the old counter in
place preserves every readback out of a well-formed heap. -/
theorem preserves_of_agree {h h' : Heap} (hwf : h.wf)
    (hag : ∀ a, a < h.next → h'.lookup a = h.lookup a) (P : Addr → Bool) :
    preserves P h h' := by
  intro a _ o ho
  rw [hag a (Heap.lookup_lt_next hwf ho)]
  exact ho

theorem atLeastB_mono {m n : Nat} (hmn : m ≤ n) :
    ∀ a, atLeastB n a = true → atLeastB m a = true := by
  intro a ha
  simp only [atLeastB, decide_eq_true_eq] at ha ⊢
  omega

/-- Reading a freshly written tree back out of the fresh region
reproduces the tree, provided the write had the fuel the tree needs. -/
theorem write_read (F : Nat) :
    (∀ (t : Tree) (h : Heap), h.wf → t.isWF = true → t.fuelNeed ≤ F →
      readValP F (atLeastB h.next) (writeValF F t h).1 (writeValF F t h).2 = some t) ∧
    (∀ (t : Tree) (h : Heap), h.wf → t.isDChainWF = true → t.chainNeed ≤ F →
      readEntriesP F (atLeastB h.next) (writeEntriesF F t h).1 (writeEntriesF F t h).2 =
        some t) ∧
    (∀ (t : Tree) (h : Heap), h.wf → t.isLChainWF = true → t.chainNeed ≤ F →
      readElemsP F (atLeastB h.next) (writeElemsF F t h).1 (writeElemsF F t h).2 =
        some t) := by
  induction F with
  | zero =>
    refine ⟨fun t h hwf hWF hfn => ?_, fun t h hwf hWF hcn => ?_, fun t h hwf hWF hcn => ?_⟩
    · have := fuelNeed_pos t
      omega
    · cases t with
      | tdnil => exact readEntriesP_nil 0 _ h
      | tdcons k v r =>
        rw [chainNeed_tdcons] at hcn
        have := fuelNeed_pos k
        omega
      | tnone => simp [Tree.isDChainWF, Tree.isDHead] at hWF
      | tint n => simp [Tree.isDChainWF, Tree.isDHead] at hWF
      | tstr sx => simp [Tree.isDChainWF, Tree.isDHead] at hWF
      | tlnil => simp [Tree.isDChainWF, Tree.isDHead] at hWF
      | tlcons x r => simp [Tree.isDChainWF, Tree.isDHead] at hWF
    · cases t with
      | tlnil => exact readElemsP_nil 0 _ h
      | tlcons x r =>
        rw [chainNeed_tlcons] at hcn
        have := fuelNeed_pos x
        omega
      | tnone => simp [Tree.isLChainWF, Tree.isLHead] at hWF
      | tint n => simp [Tree.isLChainWF, Tree.isLHead] at hWF
      | tstr sx => simp [Tree.isLChainWF, Tree.isLHead] at hWF
      | tdnil => simp [Tree.isLChainWF, Tree.isLHead] at hWF
      | tdcons k v r => simp [Tree.isLChainWF, Tree.isLHead] at hWF
  | succ F ih =>
    have hval : ∀ (t : Tree) (h : Heap), h.wf → t.isWF = true → t.fuelNeed ≤ F + 1 →
        readValP (F + 1) (atLeastB h.next)
          (writeValF (F + 1) t h).1 (writeValF (F + 1) t h).2 = some t := by
      intro t h hwf hWF hfn
      cases t with
      | tnone => exact readValP_vnone F _ _
      | tint n => exact readValP_vint F _ _ n
      | tstr sx => exact readValP_vstr F _ _ sx
      | tdnil =>
        show readValP (F + 1) (atLeastB h.next) (h.alloc (.odict [])).1 (.vref h.next) =
          some .tdnil
        rw [readValP_vref]
        have hp : atLeastB h.next h.next = true := by simp [atLeastB]
        rw [hp]
        simp only [if_true, Heap.lookup_alloc_self]
        exact readEntriesP_nil F _ _
      | tlnil =>
        show readValP (F + 1) (atLeastB h.next) (h.alloc (.olist [])).1 (.vref h.next) =
          some .tlnil
        rw [readValP_vref]
        have hp : atLeastB h.next h.next = true := by simp [atLeastB]
        rw [hp]
        simp only [if_true, Heap.lookup_alloc_self]
        exact readElemsP_nil F _ _
      | tdcons k v r =>
        have hdc : Tree.isDChainWF (.tdcons k v r) = true := isDChainWF_of_isWF_dict hWF
        rw [fuelNeed_tdcons] at hfn
        have hent := ih.2.1 (.tdcons k v r) h hwf hdc (by omega)
        have hwf3 : (writeEntriesF F (.tdcons k v r) h).1.wf := writeEntriesF_wf hwf
        show readValP (F + 1) (atLeastB h.next)
            ((writeEntriesF F (.tdcons k v r) h).1.alloc
              (.odict (writeEntriesF F (.tdcons k v r) h).2)).1
            (.vref (writeEntriesF F (.tdcons k v r) h).1.next) = some (.tdcons k v r)
        rw [readValP_vref]
        have hp : atLeastB h.next (writeEntriesF F (.tdcons k v r) h).1.next = true := by
          simp only [atLeastB, decide_eq_true_eq]
          exact writeEntriesF_next
        rw [hp]
        simp only [if_true, Heap.lookup_alloc_self]
        exact readEntriesP_stable
          (preserves_of_agree hwf3
            (fun a ha => Heap.lookup_alloc_ne _ _ (Nat.ne_of_lt ha)) _) hent
      | tlcons x r =>
        have hdc : Tree.isLChainWF (.tlcons x r) = true := isLChainWF_of_isWF_list hWF
        rw [fuelNeed_tlcons] at hfn
        have hent := ih.2.2 (.tlcons x r) h hwf hdc (by omega)
        have hwf3 : (writeElemsF F (.tlcons x r) h).1.wf := writeElemsF_wf hwf
        show readValP (F + 1) (atLeastB h.next)
            ((writeElemsF F (.tlcons x r) h).1.alloc
              (.olist (writeElemsF F (.tlcons x r) h).2)).1
            (.vref (writeElemsF F (.tlcons x r) h).1.next) = some (.tlcons x r)
        rw [readValP_vref]
        have hp : atLeastB h.next (writeElemsF F (.tlcons x r) h).1.next = true := by
          simp only [atLeastB, decide_eq_true_eq]
          exact writeElemsF_next
        rw [hp]
        simp only [if_true, Heap.lookup_alloc_self]
        exact (read_stable F _ _ _
          (preserves_of_agree hwf3
            (fun a ha => Heap.lookup_alloc_ne _ _ (Nat.ne_of_lt ha)) _)).2.2 _ _ hent
    have hent : ∀ (t : Tree) (h : Heap), h.wf → t.isDChainWF = true → t.chainNeed ≤ F + 1 →
        readEntriesP (F + 1) (atLeastB h.next)
          (writeEntriesF (F + 1) t h).1 (writeEntriesF (F + 1) t h).2 = some t := by
      intro t
      induction t with
      | tdcons k v r ihk ihv ihr =>
        intro h hwf hWF hcn
        rw [chainNeed_tdcons] at hcn
        rw [isDChainWF_tdcons] at hWF
        simp only [Bool.and_eq_true] at hWF
        rcases hk1 : writeValF (F + 1) k h with ⟨h1, pk⟩
        rcases hv1 : writeValF (F + 1) v h1 with ⟨h2, pv⟩
        rcases hr1 : writeEntriesF (F + 1) r h2 with ⟨h3, ps⟩
        have hwf1 : h1.wf := by
          have := @writeValF_wf (F + 1) k h hwf; rwa [hk1] at this
        have hwf2 : h2.wf := by
          have := @writeValF_wf (F + 1) v h1 hwf1; rwa [hv1] at this
        have hn1 : h.next ≤ h1.next := by
          have := @writeValF_next (F + 1) k h; rwa [hk1] at this
        have hn2 : h1.next ≤ h2.next := by
          have := @writeValF_next (F + 1) v h1; rwa [hv1] at this
        have hn3 : h2.next ≤ h3.next := by
          have := @writeEntriesF_next (F + 1) r h2; rwa [hr1] at this
        have hag2 : ∀ a, a < h1.next → h2.lookup a = h1.lookup a := by
          intro a ha
          have := @writeValF_agree (F + 1) v h1 a ha; rwa [hv1] at this
        have hag3 : ∀ a, a < h2.next → h3.lookup a = h2.lookup a := by
          intro a ha
          have := @writeEntriesF_agree (F + 1) r h2 a ha; rwa [hr1] at this
        have hr1x : writeEntriesAux (writeValF (F + 1)) r h2 = (h3, ps) := hr1
        have hwe : writeEntriesF (F + 1) (.tdcons k v r) h = (h3, (pk, pv) :: ps) := by
          simp [writeEntriesF, writeEntriesAux, hk1, hv1, hr1x]
        have hkread : readValP (F + 1) (atLeastB h.next) h1 pk = some k := by
          have := hval k h hwf hWF.1.1 (by omega)
          rwa [hk1] at this
        have hvread : readValP (F + 1) (atLeastB h1.next) h2 pv = some v := by
          have := hval v h1 hwf1 hWF.1.2 (by omega)
          rwa [hv1] at this
        have hrread : readEntriesP (F + 1) (atLeastB h2.next) h3 ps = some r := by
          have := ihr h2 hwf2 hWF.2 (by omega)
          rwa [hr1] at this
        have hkread3 : readValP (F + 1) (atLeastB h.next) h3 pk = some k := by
          refine readValP_stable (preserves_of_agree hwf1 ?_ _) hkread
          intro a ha
          rw [hag3 a (lt_of_lt_of_le ha hn2), hag2 a ha]
        have hvread3 : readValP (F + 1) (atLeastB h.next) h3 pv = some v := by
          have hw := readValP_mono_pred (atLeastB_mono hn1) hvread
          exact readValP_stable (preserves_of_agree hwf2 hag3 _) hw
        have hrread3 : readEntriesP (F + 1) (atLeastB h.next) h3 ps = some r :=
          readEntriesP_mono_pred (atLeastB_mono (le_trans hn1 hn2)) hrread
        rw [hwe]
        show readEntriesP (F + 1) (atLeastB h.next) h3 ((pk, pv) :: ps) = some (.tdcons k v r)
        rw [readEntriesP_cons, hkread3, hvread3, hrread3]
        rfl
      | tdnil =>
        intro h hwf hWF hcn
        exact readEntriesP_nil (F + 1) _ h
      | tnone => intro h hwf hWF hcn; simp [Tree.isDChainWF, Tree.isDHead] at hWF
      | tint n => intro h hwf hWF hcn; simp [Tree.isDChainWF, Tree.isDHead] at hWF
      | tstr sx => intro h hwf hWF hcn; simp [Tree.isDChainWF, Tree.isDHead] at hWF
      | tlnil => intro h hwf hWF hcn; simp [Tree.isDChainWF, Tree.isDHead] at hWF
      | tlcons x r ihx ihr => intro h hwf hWF hcn; simp [Tree.isDChainWF, Tree.isDHead] at hWF
    have helem : ∀ (t : Tree) (h : Heap), h.wf → t.isLChainWF = true → t.chainNeed ≤ F + 1 →
        readElemsP (F + 1) (atLeastB h.next)
          (writeElemsF (F + 1) t h).1 (writeElemsF (F + 1) t h).2 = some t := by
      intro t
      induction t with
      | tlcons x r ihx ihr =>
        intro h hwf hWF hcn
        rw [chainNeed_tlcons] at hcn
        rw [isLChainWF_tlcons] at hWF
        simp only [Bool.and_eq_true] at hWF
        rcases hx1 : writeValF (F + 1) x h with ⟨h1, px⟩
        rcases hr1 : writeElemsF (F + 1) r h1 with ⟨h2, ps⟩
        have hwf1 : h1.wf := by
          have := @writeValF_wf (F + 1) x h hwf; rwa [hx1] at this
        have hn1 : h.next ≤ h1.next := by
          have := @writeValF_next (F + 1) x h; rwa [hx1] at this
        have hn2 : h1.next ≤ h2.next := by
          have := @writeElemsF_next (F + 1) r h1; rwa [hr1] at this
        have hag2 : ∀ a, a < h1.next → h2.lookup a = h1.lookup a := by
          intro a ha
          have := @writeElemsF_agree (F + 1) r h1 a ha; rwa [hr1] at this
        have hr1x : writeElemsAux (writeValF (F + 1)) r h1 = (h2, ps) := hr1
        have hwl : writeElemsF (F + 1) (.tlcons x r) h = (h2, px :: ps) := by
          simp [writeElemsF, writeElemsAux, hx1, hr1x]
        have hxread : readValP (F + 1) (atLeastB h.next) h1 px = some x := by
          have := hval x h hwf hWF.1 (by omega)
          rwa [hx1] at this
        have hrread : readElemsP (F + 1) (atLeastB h1.next) h2 ps = some r := by
          have := ihr h1 hwf1 hWF.2 (by omega)
          rwa [hr1] at this
        have hxread2 : readValP (F + 1) (atLeastB h.next) h2 px = some x :=
          readValP_stable (preserves_of_agree hwf1 hag2 _) hxread
        have hrread2 : readElemsP (F + 1) (atLeastB h.next) h2 ps = some r :=
          (read_mono_pred (F + 1) _ _ (atLeastB_mono hn1) h2).2.2 ps r hrread
        rw [hwl]
        show readElemsP (F + 1) (atLeastB h.next) h2 (px :: ps) = some (.tlcons x r)
        rw [readElemsP_cons, hxread2, hrread2]
        rfl
      | tlnil =>
        intro h hwf hWF hcn
        exact readElemsP_nil (F + 1) _ h
      | tnone => intro h hwf hWF hcn; simp [Tree.isLChainWF, Tree.isLHead] at hWF
      | tint n => intro h hwf hWF hcn; simp [Tree.isLChainWF, Tree.isLHead] at hWF
      | tstr sx => intro h hwf hWF hcn; simp [Tree.isLChainWF, Tree.isLHead] at hWF
      | tdnil => intro h hwf hWF hcn; simp [Tree.isLChainWF, Tree.isLHead] at hWF
      | tdcons k v r ihk ihv ihr =>
        intro h hwf hWF hcn; simp [Tree.isLChainWF, Tree.isLHead] at hWF
    exact ⟨hval, hent, helem⟩

theorem readValP_ref_shape {f : Nat} {P : Addr → Bool} {h : Heap} {a : Addr} {t : Tree}
    (hr : readValP f P h (.vref a) = some t) :
    t = .tdnil ∨ (∃ k v r, t = .tdcons k v r) ∨ t = .tlnil ∨ ∃ x r, t = .tlcons x r := by
  cases f with
  | zero => rw [readValP_zero] at hr; cases hr
  | succ f =>
    rw [readValP_vref] at hr
    by_cases hPa : P a = true
    · simp only [hPa, if_true] at hr
      cases hlk : h.lookup a with
      | none => rw [hlk] at hr; cases hr
      | some o =>
        rw [hlk] at hr
        cases o with
        | odict es =>
          rcases readEntriesP_shape hr with he | ⟨k, v, r, he⟩
          · exact Or.inl he
          · exact Or.inr (Or.inl ⟨k, v, r, he⟩)
        | olist xs =>
          rcases readElemsP_shape hr with he | ⟨x, r, he⟩
          · exact Or.inr (Or.inr (Or.inl he))
          · exact Or.inr (Or.inr (Or.inr ⟨x, r, he⟩))
    · simp only [hPa] at hr
      simp at hr

/-- Writing a container tree returns a reference to a fresh cell. -/
theorem writeValF_fresh_ref {F : Nat} {t : Tree} (h : Heap) (hF : 1 ≤ F)
    (hc : t = .tdnil ∨ (∃ k v r, t = .tdcons k v r) ∨ t = .tlnil ∨ ∃ x r, t = .tlcons x r) :
    ∃ A, (writeValF F t h).2 = .vref A ∧ h.next ≤ A ∧ A < (writeValF F t h).1.next := by
  cases F with
  | zero => omega
  | succ F =>
    rcases hc with he | ⟨k, v, r, he⟩ | he | ⟨x, r, he⟩
    · subst he
      exact ⟨h.next, rfl, Nat.le_refl _, Nat.lt_succ_self _⟩
    · subst he
      refine ⟨(writeEntriesF F (.tdcons k v r) h).1.next, rfl, ?_, ?_⟩
      · exact writeEntriesF_next
      · exact Nat.lt_succ_self _
    · subst he
      exact ⟨h.next, rfl, Nat.le_refl _, Nat.lt_succ_self _⟩
    · subst he
      refine ⟨(writeElemsF F (.tlcons x r) h).1.next, rfl, ?_, ?_⟩
      · exact writeElemsF_next
      · exact Nat.lt_succ_self _

theorem deepcopyE_of_read {f : Nat} {h : Heap} {v : PyVal} {t : Tree}
    (hr : readValP f (fun _ => true) h v = some t) :
    deepcopyE f h v = .ok (writeValF f t h) := by
  unfold deepcopyE readValE
  rw [hr]

/-- Everything a successful deepcopy guarantees: the source was readable,
the heap only grew by fresh cells, and the copy reads back to the same
tree entirely inside the fresh region. -/
theorem deepcopyE_spec {f : Nat} {h : Heap} {v : PyVal} {h' : Heap} {v' : PyVal}
    (hwf : h.wf) (hdc : deepcopyE f h v = .ok (h', v')) :
    ∃ t, readValP f (fun _ => true) h v = some t ∧
      h' = (writeValF f t h).1 ∧ v' = (writeValF f t h).2 ∧
      h.next ≤ h'.next ∧ h'.wf ∧
      (∀ a, a < h.next → h'.lookup a = h.lookup a) ∧
      readValP f (atLeastB h.next) h' v' = some t ∧
      t.fuelNeed ≤ f ∧ t.isWF = true := by
  unfold deepcopyE readValE at hdc
  cases hr : readValP f (fun _ => true) h v with
  | none => rw [hr] at hdc; cases hdc
  | some t =>
    rw [hr] at hdc
    injection hdc with hp
    have he1 : h' = (writeValF f t h).1 := by rw [hp]
    have he2 : v' = (writeValF f t h).2 := by rw [hp]
    subst he1
    subst he2
    have hWF := (read_isWF f).1 _ h v t hr
    have hfn := (read_fuelNeed f).1 _ h v t hr
    refine ⟨t, rfl, rfl, rfl, writeValF_next, writeValF_wf hwf,
      fun a ha => writeValF_agree ha, ?_, hfn, hWF⟩
    exact (write_read f).1 t h hwf hWF hfn

theorem validTrace_order (s : TokenBag) (es : List BEvent) (hv : ValidTrace s es) :
    (s.hasProcessed = false →
      ∀ pre post, es = pre ++ .build :: post → BEvent.processTemplate ∈ pre) ∧
    (s.hasBuilt = false →
      ∀ pre post, es = pre ++ .fetchBuilt :: post → BEvent.build ∈ pre) := by
  induction hv with
  | nil s =>
    constructor
    · intro _ pre post heq
      exact absurd heq (by simp)
    · intro _ pre post heq
      exact absurd heq (by simp)
  | cons s e es henb hv ih =>
    constructor
    · intro hsp pre post heq
      cases pre with
      | nil =>
        simp only [List.nil_append, List.cons.injEq] at heq
        rw [heq.1] at henb
        rw [BEvent.enabled] at henb
        rw [hsp] at henb
        cases henb
      | cons p pre' =>
        simp only [List.cons_append, List.cons.injEq] at heq
        obtain ⟨hep, hes⟩ := heq
        by_cases hpt : e = BEvent.processTemplate
        · rw [← hep, ← hpt]
          exact List.mem_cons_self _ _
        · have hkeep : (BEvent.mint s e).hasProcessed = false := by
            cases e <;> simp [BEvent.mint, hsp] at hpt ⊢
          exact List.mem_cons_of_mem _ (ih.1 hkeep pre' post hes)
    · intro hsb pre post heq
      cases pre with
      | nil =>
        simp only [List.nil_append, List.cons.injEq] at heq
        rw [heq.1] at henb
        rw [BEvent.enabled] at henb
        rw [hsb] at henb
        cases henb
      | cons p pre' =>
        simp only [List.cons_append, List.cons.injEq] at heq
        obtain ⟨hep, hes⟩ := heq
        by_cases hbd : e = BEvent.build
        · rw [← hep, ← hbd]
          exact List.mem_cons_self _ _
        · have hkeep : (BEvent.mint s e).hasBuilt = false := by
            cases e <;> simp [BEvent.mint, hsb] at hbd ⊢
          exact List.mem_cons_of_mem _ (ih.2 hkeep pre' post hes)

theorem check_own (b : Builder) :
    Builder._check_see_if_same_builder_instance b b.selfId = .ok () := by
  simp [Builder._check_see_if_same_builder_instance]

theorem check_foreign {b : Builder} {target : Nat} (hne : b.selfId ≠ target) :
    Builder._check_see_if_same_builder_instance b target = .error .notSameBuilderInstance := by
  simp [Builder._check_see_if_same_builder_instance, hne]

theorem readValE_error {f : Nat} {h : Heap} {v : PyVal} {e : PyErr}
    (he : readValE f h v = .error e) : e = .outOfFuel := by
  unfold readValE at he
  cases hr : readValP f (fun _ => true) h v with
  | some t => rw [hr] at he; cases he
  | none =>
    rw [hr] at he
    injection he with he'
    exact he'.symm

theorem deepcopyE_error {f : Nat} {h : Heap} {v : PyVal} {e : PyErr}
    (he : deepcopyE f h v = .error e) : e = .outOfFuel := by
  unfold deepcopyE at he
  cases hr : readValE f h v with
  | ok t => rw [hr] at he; cases he
  | error e' =>
    rw [hr] at he
    injection he with he'
    rw [← he']
    exact readValE_error hr

theorem fetch_render_context_own_error {f : Nat} {h : Heap} {b : Builder} {e : PyErr}
    (he : Builder.fetch_render_context f h b b.selfId = .error e) : e = .outOfFuel := by
  unfold Builder.fetch_render_context at he
  split at he
  · rename_i e1 heq
    rw [check_own] at heq
    cases heq
  · exact deepcopyE_error he

theorem fetch_processed_own_error {f : Nat} {h : Heap} {b : Builder} {e : PyErr}
    (he : Builder.fetch_processed f h b b.selfId = .error e) : e = .outOfFuel := by
  unfold Builder.fetch_processed at he
  split at he
  · rename_i e1 heq
    rw [check_own] at heq
    cases heq
  · exact deepcopyE_error he

theorem fetch_built_own_error {f : Nat} {h : Heap} {b : Builder} {e : PyErr}
    (he : Builder.fetch_built f h b b.selfId = .error e) : e = .outOfFuel := by
  unfold Builder.fetch_built at he
  split at he
  · rename_i e1 heq
    rw [check_own] at heq
    cases heq
  · exact deepcopyE_error he

theorem process_template_inner_error {f : Nat} {h : Heap} {b : Builder} {ctx : PyVal}
    {e : PyErr} (he : Builder._process_template f h b ctx = .error e) : e = .outOfFuel := by
  unfold Builder._process_template at he
  cases h1 : readValE f h b.templateGetter.state with
  | error e1 =>
    rw [h1] at he
    injection he with he'
    rw [← he']
    exact readValE_error h1
  | ok st =>
    rw [h1] at he
    cases h2 : readValE f h ctx with
    | error e2 =>
      rw [h2] at he
      injection he with he'
      rw [← he']
      exact readValE_error h2
    | ok ct =>
      rw [h2] at he
      cases he

theorem build_inner_error {f : Nat} {h : Heap} {b : Builder} {pc : PyVal} {e : PyErr}
    (he : Builder._build f h b pc = .error e) : e = .outOfFuel := by
  unfold Builder._build at he
  cases h1 : readValE f h pc with
  | error e1 =>
    rw [h1] at he
    injection he with he'
    rw [← he']
    exact readValE_error h1
  | ok pt =>
    rw [h1] at he
    cases he

theorem process_template_own_error {f : Nat} {h : Heap} {b : Builder} {e : PyErr}
    (he : Builder.process_template f h b b.selfId = .error e) : e = .outOfFuel := by
  unfold Builder.process_template at he
  split at he
  · rename_i e1 heq
    rw [check_own] at heq
    cases heq
  · split at he
    · rename_i e1 heq
      injection he with he'
      rw [← he']
      exact fetch_render_context_own_error heq
    · split at he
      · rename_i e2 heq2
        injection he with he'
        rw [← he']
        exact process_template_inner_error heq2
      · cases he

theorem build_own_error {f : Nat} {h : Heap} {b : Builder} {e : PyErr}
    (he : Builder.build f h b b.selfId = .error e) : e = .outOfFuel := by
  unfold Builder.build at he
  split at he
  · rename_i e1 heq
    rw [check_own] at heq
    cases heq
  · split at he
    · rename_i e1 heq
      injection he with he'
      rw [← he']
      exact fetch_processed_own_error heq
    · split at he
      · rename_i e2 heq2
        injection he with he'
        rw [← he']
        exact build_inner_error heq2
      · cases he

/-- C1: a token minted by a different Builder instance makes every
stage-advancing or fetch method raise `NotSameBuilderInstanceError`,
while the called instance's own token never trips that error.  Tokens
are at runtime the minting instance itself, and the identity guard
compares instances (builder.py lines 118-122). -/
theorem claim_C1_instance_mismatch (f : Nat) (h : Heap) (b1 b2 : Builder)
    (hne : b1.selfId ≠ b2.selfId) :
    (Builder.fetch_render_context f h b2 (Builder.init_builder_target b1) =
        .error .notSameBuilderInstance ∧
      Builder.process_template f h b2 (Builder.init_builder_target b1) =
        .error .notSameBuilderInstance ∧
      Builder.fetch_processed f h b2 (Builder.init_builder_target b1) =
        .error .notSameBuilderInstance ∧
      Builder.build f h b2 (Builder.init_builder_target b1) =
        .error .notSameBuilderInstance ∧
      Builder.fetch_built f h b2 (Builder.init_builder_target b1) =
        .error .notSameBuilderInstance) ∧
    (Builder.fetch_render_context f h b2 (Builder.init_builder_target b2) ≠
        .error .notSameBuilderInstance ∧
      Builder.process_template f h b2 (Builder.init_builder_target b2) ≠
        .error .notSameBuilderInstance ∧
      Builder.fetch_processed f h b2 (Builder.init_builder_target b2) ≠
        .error .notSameBuilderInstance ∧
      Builder.build f h b2 (Builder.init_builder_target b2) ≠
        .error .notSameBuilderInstance ∧
      Builder.fetch_built f h b2 (Builder.init_builder_target b2) ≠
        .error .notSameBuilderInstance) := by
  have hne2 : b2.selfId ≠ Builder.init_builder_target b1 := fun hc => hne (hc.symm)
  constructor
  · refine ⟨?_, ?_, ?_, ?_, ?_⟩
    · unfold Builder.fetch_render_context
      rw [check_foreign hne2]
    · unfold Builder.process_template
      rw [check_foreign hne2]
    · unfold Builder.fetch_processed
      rw [check_foreign hne2]
    · unfold Builder.build
      rw [check_foreign hne2]
    · unfold Builder.fetch_built
      rw [check_foreign hne2]
  · refine ⟨fun hc => ?_, fun hc => ?_, fun hc => ?_, fun hc => ?_, fun hc => ?_⟩
    · cases fetch_render_context_own_error hc
    · cases process_template_own_error hc
    · cases fetch_processed_own_error hc
    · cases build_own_error hc
    · cases fetch_built_own_error hc

theorem claim_C1_witness :
    (trivialBuilder 0).selfId ≠ (trivialBuilder 1).selfId ∧
    ((Builder.fetch_render_context 1 emptyHeap (trivialBuilder 1)
          (Builder.init_builder_target (trivialBuilder 0)) =
        .error .notSameBuilderInstance ∧
      Builder.process_template 1 emptyHeap (trivialBuilder 1)
          (Builder.init_builder_target (trivialBuilder 0)) =
        .error .notSameBuilderInstance ∧
      Builder.fetch_processed 1 emptyHeap (trivialBuilder 1)
          (Builder.init_builder_target (trivialBuilder 0)) =
        .error .notSameBuilderInstance ∧
      Builder.build 1 emptyHeap (trivialBuilder 1)
          (Builder.init_builder_target (trivialBuilder 0)) =
        .error .notSameBuilderInstance ∧
      Builder.fetch_built 1 emptyHeap (trivialBuilder 1)
          (Builder.init_builder_target (trivialBuilder 0)) =
        .error .notSameBuilderInstance) ∧
    (Builder.fetch_render_context 1 emptyHeap (trivialBuilder 1)
          (Builder.init_builder_target (trivialBuilder 1)) ≠
        .error .notSameBuilderInstance ∧
      Builder.process_template 1 emptyHeap (trivialBuilder 1)
          (Builder.init_builder_target (trivialBuilder 1)) ≠
        .error .notSameBuilderInstance ∧
      Builder.fetch_processed 1 emptyHeap (trivialBuilder 1)
          (Builder.init_builder_target (trivialBuilder 1)) ≠
        .error .notSameBuilderInstance ∧
      Builder.build 1 emptyHeap (trivialBuilder 1)
          (Builder.init_builder_target (trivialBuilder 1)) ≠
        .error .notSameBuilderInstance ∧
      Builder.fetch_built 1 emptyHeap (trivialBuilder 1)
          (Builder.init_builder_target (trivialBuilder 1)) ≠
        .error .notSameBuilderInstance)) :=
  ⟨by decide,
    claim_C1_instance_mismatch 1 emptyHeap (trivialBuilder 0) (trivialBuilder 1) (by decide)⟩

/-- C2: in every call sequence accepted by the static token discipline
of builder.py (the NewType stage-token signatures), a `build` call is
preceded by a completed `process_template` call, and a `fetch_built`
call is preceded by a completed `build` call, starting from a caller
that holds no stage token yet. -/
theorem claim_C2_stage_order (es : List BEvent) (hv : ValidTrace TokenBag.start es) :
    (∀ pre post, es = pre ++ .build :: post → BEvent.processTemplate ∈ pre) ∧
    (∀ pre post, es = pre ++ .fetchBuilt :: post → BEvent.build ∈ pre) :=
  ⟨(validTrace_order TokenBag.start es hv).1 rfl,
    (validTrace_order TokenBag.start es hv).2 rfl⟩

theorem claim_C2_witness :
    ValidTrace TokenBag.start
      [BEvent.initBuilderTarget, BEvent.processTemplate, BEvent.build, BEvent.fetchBuilt] ∧
    BEvent.processTemplate ∈ [BEvent.initBuilderTarget, BEvent.processTemplate] ∧
    BEvent.build ∈ [BEvent.initBuilderTarget, BEvent.processTemplate, BEvent.build] := by
  have hv : ValidTrace TokenBag.start
      [BEvent.initBuilderTarget, BEvent.processTemplate, BEvent.build, BEvent.fetchBuilt] :=
    .cons _ _ _ (by decide)
      (.cons _ _ _ (by decide)
        (.cons _ _ _ (by decide)
          (.cons _ _ _ (by decide) (.nil _))))
  refine ⟨hv, ?_, ?_⟩
  · exact (claim_C2_stage_order _ hv).1 [BEvent.initBuilderTarget, BEvent.processTemplate]
      [BEvent.fetchBuilt] rfl
  · exact (claim_C2_stage_order _ hv).2
      [BEvent.initBuilderTarget, BEvent.processTemplate, BEvent.build] [] rfl

theorem readValP_pos {f : Nat} {P : Addr → Bool} {h : Heap} {v : PyVal} {t : Tree}
    (hr : readValP f P h v = some t) : 1 ≤ f := by
  cases f with
  | zero => rw [readValP_zero] at hr; cases hr
  | succ f => exact Nat.succ_le_succ (Nat.zero_le f)

theorem read_below {f : Nat} {h : Heap} {v : PyVal} {t : Tree} (hwf : h.wf)
    (hr : readValP f (fun _ => true) h v = some t) :
    readValP f (belowB h.next) h v = some t := by
  have hb := (read_bound f (fun _ => true) h hwf).1 v t hr
  refine readValP_mono_pred ?_ hb
  intro a ha
  simpa using ha

/-- Central copy lemma: a successful deep copy returns a structurally
equal value living entirely in the fresh region, the old cells are
untouched, and any later heap evolution that keeps the cells below the
old counter intact (in particular, any mutation of the returned copy)
leaves both the source readback and future copies unchanged. -/
theorem deepcopy_fetch_frame (f : Nat) (h : Heap) (v : PyVal) (t : Tree)
    (hwf : h.wf) (hr : readValP f (fun _ => true) h v = some t) :
    ∃ h' v', deepcopyE f h v = .ok (h', v') ∧ h'.wf ∧ h.next ≤ h'.next ∧
      (∀ a, a < h.next → h'.lookup a = h.lookup a) ∧
      readValP f (fun _ => true) h' v' = some t ∧
      readValP f (atLeastB h.next) h' v' = some t ∧
      (∀ h2 : Heap, h2.wf → (∀ a, a < h.next → h2.lookup a = h.lookup a) →
        ∃ h2' v2, deepcopyE f h2 v = .ok (h2', v2) ∧
          readValP f (fun _ => true) h2' v2 = some t) := by
  have hdc := deepcopyE_of_read hr
  rcases deepcopyE_spec hwf hdc with
    ⟨t', hr', hh', hv', hnext, hwf', hag', hread', hfn', hWF'⟩
  rw [hr] at hr'
  injection hr' with ht
  subst ht
  refine ⟨(writeValF f t h).1, (writeValF f t h).2, by rw [hdc, hh', hv'], ?_, ?_, ?_, ?_, ?_, ?_⟩
  · rw [← hh']; exact hwf'
  · rw [← hh']; exact hnext
  · rw [← hh']; exact hag'
  · rw [← hh', ← hv'] at hread' ⊢
    exact readValP_mono_pred (fun a _ => rfl) hread'
  · rw [← hh', ← hv'] at hread' ⊢
    exact hread'
  · intro h2 hwf2 hag2
    have hbelow : readValP f (belowB h.next) h v = some t := read_below hwf hr
    have hstab : readValP f (belowB h.next) h2 v = some t := by
      refine readValP_stable ?_ hbelow
      intro a hPa o ho
      rw [hag2 a (by simpa [belowB] using hPa)]
      exact ho
    have htrue2 : readValP f (fun _ => true) h2 v = some t :=
      readValP_mono_pred (fun a _ => rfl) hstab
    have hdc2 := deepcopyE_of_read htrue2
    refine ⟨(writeValF f t h2).1, (writeValF f t h2).2, hdc2, ?_⟩
    have := (write_read f).1 t h2 hwf2 hWF' hfn'
    exact readValP_mono_pred (fun a _ => rfl) this

theorem recordReads_stable {f : Nat} {h h' : Heap}
    (hp : preserves (fun _ => true) h h') :
    ∀ {l : List (String × PyVal)} {nts : List (String × Tree)},
      recordReads f h l = some nts → recordReads f h' l = some nts := by
  intro l
  induction l with
  | nil => intro nts hr; exact hr
  | cons e rest ih =>
    obtain ⟨n, v⟩ := e
    intro nts hr
    rw [recordReads] at hr ⊢
    cases hv : readValP f (fun _ => true) h v with
    | none => rw [hv] at hr; cases hr
    | some t =>
      rw [hv] at hr
      rw [readValP_stable hp hv]
      cases hrest : recordReads f h rest with
      | none => rw [hrest] at hr; cases hr
      | some nts' =>
        rw [hrest] at hr
        rw [ih hrest]
        exact hr

theorem asdictEntries_spec (f : Nat) :
    ∀ (record : List (String × PyVal)) (h : Heap) (nts : List (String × Tree)),
    h.wf → recordReads f h record = some nts →
    ∃ h1 ps, asdictEntries f h record = .ok (h1, ps) ∧ h1.wf ∧ h.next ≤ h1.next ∧
      (∀ a, a < h.next → h1.lookup a = h.lookup a) ∧
      readEntriesP f (atLeastB h.next) h1 ps = some (dictChainOf nts) := by
  intro record
  induction record with
  | nil =>
    intro h nts hwf hr
    rw [recordReads] at hr
    injection hr with hr
    subst hr
    exact ⟨h, [], rfl, hwf, Nat.le_refl _, fun a _ => rfl, readEntriesP_nil f _ h⟩
  | cons e rest ih =>
    obtain ⟨n, v⟩ := e
    intro h nts hwf hr
    rw [recordReads] at hr
    cases hv : readValP f (fun _ => true) h v with
    | none => rw [hv] at hr; cases hr
    | some t =>
      rw [hv] at hr
      cases hrest : recordReads f h rest with
      | none => rw [hrest] at hr; cases hr
      | some nts' =>
        rw [hrest] at hr
        injection hr with hr
        subst hr
        have hf1 : 1 ≤ f := readValP_pos hv
        rcases deepcopy_fetch_frame f h v t hwf hv with
          ⟨hA, vA, hdc, hwfA, hnA, hagA, _, hreadA, _⟩
        have hrestA : recordReads f hA rest = some nts' :=
          recordReads_stable (preserves_of_agree hwf hagA _) hrest
        rcases ih hA nts' hwfA hrestA with ⟨h1, ps, hasd, hwf1, hn1, hag1, hread1⟩
        refine ⟨h1, (.vstr n, vA) :: ps, ?_, hwf1, le_trans hnA hn1, ?_, ?_⟩
        · simp [asdictEntries, hdc, hasd]
        · intro a ha
          rw [hag1 a (lt_of_lt_of_le ha hnA), hagA a ha]
        · have hkey : readValP f (atLeastB h.next) h1 (.vstr n) = some (.tstr n) := by
            cases f with
            | zero => omega
            | succ f => exact readValP_vstr f _ _ n
          have hvalA : readValP f (atLeastB h.next) h1 vA = some t :=
            readValP_stable (preserves_of_agree hwfA hag1 _) hreadA
          have hrest1 : readEntriesP f (atLeastB h.next) h1 ps = some (dictChainOf nts') :=
            readEntriesP_mono_pred (atLeastB_mono hnA) hread1
          rw [readEntriesP_cons, hkey, hvalA, hrest1]
          rfl

/-- C5 counterexample: `Config.__init__` stores the raw mapping aliased
(config.py line 42), so mutating the caller's original mapping after
construction changes what `raw_config_dict` returns, what `load_config`
constructs, and the derived render context — the claim's
copy-at-construction is refuted at this input. -/
theorem claim_C5_counterexample :
    fetchRawTree 2 hC5 cC5 = some (.tdcons (.tstr "x") (.tint 1) .tdnil) ∧
    fetchRawTree 2 hC5m cC5 = some (.tdcons (.tstr "x") (.tint 2) .tdnil) ∧
    (Config.load_config_run hC5 cC5).data = some [("x", .vint 1)] ∧
    (Config.load_config_run hC5m cC5).data = some [("x", .vint 2)] ∧
    renderContextTreeOf 2 hC5 (Config.load_config_run hC5 cC5) =
      some (.tdcons (.tstr "x") (.tint 1) .tdnil) ∧
    renderContextTreeOf 2 hC5m (Config.load_config_run hC5m cC5) =
      some (.tdcons (.tstr "x") (.tint 2) .tdnil) := by
  refine ⟨rfl, rfl, rfl, rfl, rfl, rfl⟩

/-- C5 amended: the Config stores the caller's mapping by reference, so
mutating the original is visible through every accessor (see the
counterexample); what does hold is that `raw_config_dict` returns an
independent deep copy each call — mutating a returned copy (any heap
evolution confined to the fresh region) never changes the stored
mapping or what later calls return. -/
theorem claim_C5_raw_dict_copy (f : Nat) (h : Heap) (c : ConfigObj) (t : Tree)
    (hwf : h.wf) (hr : readValP f (fun _ => true) h c.rawConfigDict = some t) :
    (∀ (v : PyVal) (fields : List FieldSpec), (Config.mkConfig v fields).rawConfigDict = v) ∧
    ∃ h' v', Config.raw_config_dict f h c = .ok (h', v') ∧
      readValP f (fun _ => true) h' v' = some t ∧
      (∀ a, a < h.next → h'.lookup a = h.lookup a) ∧
      (∀ h2 : Heap, h2.wf → (∀ a, a < h.next → h2.lookup a = h.lookup a) →
        ∃ h2' v2, Config.raw_config_dict f h2 c = .ok (h2', v2) ∧
          readValP f (fun _ => true) h2' v2 = some t) := by
  rcases deepcopy_fetch_frame f h c.rawConfigDict t hwf hr with
    ⟨h', v', hdc, _, _, hag, htrue, _, hmut⟩
  exact ⟨fun v fields => rfl, h', v', hdc, htrue, hag, hmut⟩

theorem claim_C5_witness :
    hC5.wf ∧
    ((∀ (v : PyVal) (fields : List FieldSpec), (Config.mkConfig v fields).rawConfigDict = v) ∧
    ∃ h' v', Config.raw_config_dict 2 hC5 cC5 = .ok (h', v') ∧
      readValP 2 (fun _ => true) h' v' = some (.tdcons (.tstr "x") (.tint 1) .tdnil) ∧
      (∀ a, a < hC5.next → h'.lookup a = hC5.lookup a) ∧
      (∀ h2 : Heap, h2.wf → (∀ a, a < hC5.next → h2.lookup a = hC5.lookup a) →
        ∃ h2' v2, Config.raw_config_dict 2 h2 cC5 = .ok (h2', v2) ∧
          readValP 2 (fun _ => true) h2' v2 =
            some (.tdcons (.tstr "x") (.tint 1) .tdnil))) :=
  ⟨by decide,
    claim_C5_raw_dict_copy 2 hC5 cC5 (.tdcons (.tstr "x") (.tint 1) .tdnil)
      (by decide) (by decide)⟩

/-- C6 counterexample: on a Config with no data loaded, the `data`
property returns `None` and `get_render_context` returns a fresh empty
dict — neither raises `ConfigDataNotLoadedError`, refuting the claim
that accessing derived values before `load_config` raises it.  (The
error class exists, config.py lines 12-13, but the core never raises
it; the tests raise it only from subclass-defined accessors.) -/
theorem claim_C6_counterexample :
    Config.data_property cC6 = none ∧
    Config.get_render_context 1 hC6 cC6 = .ok (hC6.alloc (.odict [])) ∧
    Config.get_render_context 1 hC6 cC6 ≠ .error .configDataNotLoaded := by
  refine ⟨rfl, rfl, by decide⟩

/-- C6 amended: before `load_config` has run, the base accessors do not
raise: `data` returns the absence marker `None` and
`get_render_context` returns a fresh empty mapping;
`ConfigDataNotLoadedError` is provided for subclasses but never raised
by the core. -/
theorem claim_C6_accessors_before_load (f : Nat) (h : Heap) (c : ConfigObj)
    (hdata : c.data = none) :
    Config.data_property c = none ∧
    Config.get_render_context f h c = .ok (h.alloc (.odict [])) ∧
    Config.get_render_context f h c ≠ .error .configDataNotLoaded := by
  have hg : Config.get_render_context f h c = .ok (h.alloc (.odict [])) := by
    unfold Config.get_render_context
    rw [hdata]
    rfl
  refine ⟨hdata, hg, ?_⟩
  rw [hg]
  intro hcon
  cases hcon

theorem claim_C6_witness :
    cC6.data = none ∧
    (Config.data_property cC6 = none ∧
      Config.get_render_context 1 hC6 cC6 = .ok (hC6.alloc (.odict [])) ∧
      Config.get_render_context 1 hC6 cC6 ≠ .error .configDataNotLoaded) :=
  ⟨rfl, claim_C6_accessors_before_load 1 hC6 cC6 rfl⟩

theorem find_str_eq_none {kws : List (String × PyVal)} {name : String}
    (hno : ∀ kv ∈ kws, kv.1 ≠ name) :
    kws.find? (fun kv => kv.1 == name) = none := by
  induction kws with
  | nil => rfl
  | cons kv rest ih =>
    rw [List.find?]
    have hne : (kv.1 == name) = false := by
      simp [hno kv (List.mem_cons_self _ _)]
    rw [hne]
    exact ih (fun kv' hm => hno kv' (List.mem_cons_of_mem _ hm))

theorem fieldsLookup_none {kwargs : List (String × PyVal)} :
    ∀ {fields : List FieldSpec},
    (∃ fs ∈ fields, kwargs.find? (fun kv => kv.1 == fs.name) = none) →
    fieldsLookup kwargs fields = none := by
  intro fields
  induction fields with
  | nil =>
    intro hex
    rcases hex with ⟨fs, hmem, _⟩
    cases hmem
  | cons fs rest ih =>
    intro hex
    rw [fieldsLookup]
    rcases hex with ⟨fs', hmem, hnone⟩
    rcases List.mem_cons.mp hmem with he | hm
    · subst he
      rw [hnone]
    · cases hf : kwargs.find? (fun kv => kv.1 == fs.name) with
      | none => rfl
      | some kv =>
        rw [ih ⟨fs', hm, hnone⟩]

/-- C7 counterexample: a mistyped field value is accepted without any
validation error — `load_config` succeeds and stores the int under the
`str`-annotated field, because dataclasses do not validate annotations
at runtime.  This refutes the claim's "mistyped field values" case. -/
theorem claim_C7_counterexample :
    Config.load_config hC7 cC7 =
      .ok { cC7 with data := some [("foo", .vint 5)] } ∧
    cC7.configDataFields = [{ name := "foo", ty := .tyStr }] ∧
    scalarTy (.vint 5) = some .tyInt ∧
    PyTy.tyInt ≠ PyTy.tyStr := by
  refine ⟨rfl, rfl, rfl, by decide⟩

/-- C7 amended: `load_config` raises a TypeError when a declared field
is missing from the raw mapping or when the raw mapping holds a key
that names no declared field, and then no partial state is retained —
the Config object is exactly as before the failed call.  (Mistyped
field values are accepted; see the counterexample.) -/
theorem claim_C7_validation (h : Heap) (c : ConfigObj) (kws : List (String × PyVal))
    (hkw : kwargsOfRawDict h c.rawConfigDict = .ok kws)
    (hbad : (∃ fs ∈ c.configDataFields, ∀ kv ∈ kws, kv.1 ≠ fs.name) ∨
      (∃ kv ∈ kws, ∀ fs ∈ c.configDataFields, fs.name ≠ kv.1)) :
    Config.load_config h c = .error .typeError ∧
    Config.load_config_run h c = c := by
  have herr : ConfigDataCtor c.configDataFields kws = .error .typeError := by
    unfold ConfigDataCtor
    rcases hbad with ⟨fs, hmem, hno⟩ | ⟨kv, hmem, hno⟩
    · by_cases hall : kws.all (fun kv => c.configDataFields.any (fun fs => fs.name == kv.1)) = true
      · rw [if_pos hall, fieldsLookup_none ⟨fs, hmem, find_str_eq_none hno⟩]
      · rw [if_neg hall]
    · have hfalse : kws.all (fun kv => c.configDataFields.any (fun fs => fs.name == kv.1)) = false := by
        rw [List.all_eq_false]
        refine ⟨kv, hmem, ?_⟩
        intro hc
        rw [List.any_eq_true] at hc
        rcases hc with ⟨fs, hfs, hbeq⟩
        exact hno fs hfs (by simpa using hbeq)
      rw [hfalse]
      rfl
  have hload : Config.load_config h c = .error .typeError := by
    simp [Config.load_config, hkw, herr]
  refine ⟨hload, ?_⟩
  simp [Config.load_config_run, hload]

theorem claim_C7_witness :
    (kwargsOfRawDict hC7 (Config.mkConfig (.vref 0)
        [{ name := "bar", ty := .tyInt }]).rawConfigDict = .ok [("foo", .vint 5)]) ∧
    (Config.load_config hC7 (Config.mkConfig (.vref 0) [{ name := "bar", ty := .tyInt }]) =
        .error .typeError ∧
      Config.load_config_run hC7 (Config.mkConfig (.vref 0) [{ name := "bar", ty := .tyInt }]) =
        Config.mkConfig (.vref 0) [{ name := "bar", ty := .tyInt }]) :=
  ⟨rfl,
    claim_C7_validation hC7 (Config.mkConfig (.vref 0) [{ name := "bar", ty := .tyInt }])
      [("foo", .vint 5)] rfl
      (Or.inl ⟨{ name := "bar", ty := .tyInt }, by decide, by decide⟩)⟩

/-- C8: `get_render_context` returns a fresh empty mapping when no data
is loaded, and otherwise the flat mapping from the record's field names
to (copies of) their values, in declaration order; on the concrete
Scenario 1 input it returns exactly `{"foo": "FOO", "bar": 5}`. -/
theorem claim_C8_render_context :
    (∀ (f : Nat) (h : Heap) (c : ConfigObj), c.data = none →
      Config.get_render_context f h c = .ok (h.alloc (.odict []))) ∧
    (∀ (f : Nat) (h : Heap) (c : ConfigObj) (record : List (String × PyVal))
        (nts : List (String × Tree)), h.wf → c.data = some record →
      recordReads f h record = some nts →
      ∃ h' v', Config.get_render_context f h c = .ok (h', v') ∧
        readValP (f + 1) (fun _ => true) h' v' = some (dictChainOf nts)) ∧
    renderContextTreeOf 3 hC8 (Config.load_config_run hC8 cC8) =
      some (.tdcons (.tstr "foo") (.tstr "FOO") (.tdcons (.tstr "bar") (.tint 5) .tdnil)) := by
  refine ⟨fun f h c hdata => ?_, fun f h c record nts hwf hdata hreads => ?_, ?_⟩
  · unfold Config.get_render_context
    rw [hdata]
    rfl
  · rcases asdictEntries_spec f record h nts hwf hreads with
      ⟨h1, ps, hasd, hwf1, hn1, hag1, hread1⟩
    refine ⟨(h1.alloc (.odict ps)).1, (h1.alloc (.odict ps)).2, ?_, ?_⟩
    · simp [Config.get_render_context, Config._get_render_context, hdata, hasd]
    · show readValP (f + 1) (fun _ => true) (h1.alloc (.odict ps)).1 (.vref h1.next) =
        some (dictChainOf nts)
      rw [readValP_vref]
      simp only [if_true, Heap.lookup_alloc_self]
      have htr : readEntriesP f (fun _ => true) h1 ps = some (dictChainOf nts) :=
        readEntriesP_mono_pred (fun a _ => rfl) hread1
      exact readEntriesP_stable
        (preserves_of_agree hwf1
          (fun a ha => Heap.lookup_alloc_ne _ _ (Nat.ne_of_lt ha)) _) htr
  · rfl

theorem claim_C8_witness :
    (Config.get_render_context 1 emptyHeap (Config.mkConfig .vnone []) =
      .ok (emptyHeap.alloc (.odict []))) ∧
    (∃ h' v', Config.get_render_context 2 hC8 (Config.load_config_run hC8 cC8) = .ok (h', v') ∧
      readValP 3 (fun _ => true) h' v' =
        some (dictChainOf [("foo", .tstr "FOO"), ("bar", .tint 5)])) :=
  ⟨claim_C8_render_context.1 1 emptyHeap (Config.mkConfig .vnone []) rfl,
    claim_C8_render_context.2.1 2 hC8 (Config.load_config_run hC8 cC8)
      [("foo", .vstr "FOO"), ("bar", .vint 5)] [("foo", .tstr "FOO"), ("bar", .tint 5)]
      (by decide) rfl rfl⟩

theorem readValP_ref_pred {f : Nat} {P : Addr → Bool} {h : Heap} {a : Addr} {t : Tree}
    (hr : readValP f P h (.vref a) = some t) : P a = true := by
  cases f with
  | zero => rw [readValP_zero] at hr; cases hr
  | succ f =>
    rw [readValP_vref] at hr
    by_cases hPa : P a = true
    · exact hPa
    · simp only [hPa] at hr
      simp at hr

theorem fetch_render_context_own_eq {f : Nat} {h : Heap} {b : Builder}
    {r : Except PyErr (Heap × PyVal)} (hd : deepcopyE f h b.renderContext = r) :
    Builder.fetch_render_context f h b b.selfId = r := by
  unfold Builder.fetch_render_context
  rw [check_own]
  exact hd

theorem fetch_processed_own_eq {f : Nat} {h : Heap} {b : Builder}
    {r : Except PyErr (Heap × PyVal)} (hd : deepcopyE f h b.processed = r) :
    Builder.fetch_processed f h b b.selfId = r := by
  unfold Builder.fetch_processed
  rw [check_own]
  exact hd

theorem fetch_built_own_eq {f : Nat} {h : Heap} {b : Builder}
    {r : Except PyErr (Heap × PyVal)} (hd : deepcopyE f h b.built = r) :
    Builder.fetch_built f h b b.selfId = r := by
  unfold Builder.fetch_built
  rw [check_own]
  exact hd

theorem process_template_inner_eq {f : Nat} {h1 : Heap} {b : Builder} {ctxCopy : PyVal}
    {tst tctx : Tree}
    (hst : readValP f (fun _ => true) h1 b.templateGetter.state = some tst)
    (hctx : readValP f (fun _ => true) h1 ctxCopy = some tctx) :
    Builder._process_template f h1 b ctxCopy =
      .ok ((writeTree (b.parse_rendered_template (b.templateGetter.renderOf tst tctx)) h1).1,
        { b with processed :=
          (writeTree (b.parse_rendered_template (b.templateGetter.renderOf tst tctx)) h1).2 }) := by
  have h1e : readValE f h1 b.templateGetter.state = .ok tst := by
    unfold readValE; rw [hst]
  have h2e : readValE f h1 ctxCopy = .ok tctx := by
    unfold readValE; rw [hctx]
  simp [Builder._process_template, h1e, h2e]

theorem process_template_own_eq {f : Nat} {h : Heap} {b : Builder}
    {h1 : Heap} {ctxCopy : PyVal} {h2 : Heap} {b2 : Builder}
    (hf : Builder.fetch_render_context f h b b.selfId = .ok (h1, ctxCopy))
    (hp : Builder._process_template f h1 b ctxCopy = .ok (h2, b2)) :
    Builder.process_template f h b b.selfId = .ok (h2, b2, b.selfId) := by
  simp [Builder.process_template, check_own, hf, hp]

/-- Heap facts and result readability for a successful `asdict` pass. -/
theorem asdictEntries_success_spec (f : Nat) :
    ∀ (record : List (String × PyVal)) (h h' : Heap) (ps : List (PyVal × PyVal)), h.wf →
    asdictEntries f h record = .ok (h', ps) →
    h'.wf ∧ h.next ≤ h'.next ∧ (∀ a, a < h.next → h'.lookup a = h.lookup a) ∧
    ∃ c, readEntriesP f (atLeastB h.next) h' ps = some c := by
  intro record
  induction record with
  | nil =>
    intro h h' ps hwf ha
    rw [asdictEntries] at ha
    injection ha with ha
    injection ha with ha1 ha2
    subst ha1
    subst ha2
    exact ⟨hwf, Nat.le_refl _, fun a _ => rfl, .tdnil, readEntriesP_nil f _ h⟩
  | cons e rest ih =>
    obtain ⟨n, v⟩ := e
    intro h h' ps hwf ha
    rw [asdictEntries] at ha
    split at ha
    · cases ha
    · rename_i hA vA hdc
      rcases deepcopyE_spec hwf hdc with
        ⟨t, hrv, _, _, hnA, hwfA, hagA, hreadA, _, _⟩
      have hf1 : 1 ≤ f := readValP_pos hrv
      split at ha
      · cases ha
      · rename_i h1 ps1 hrest
        injection ha with ha
        injection ha with ha1 ha2
        subst ha1
        subst ha2
        rcases ih hA h1 ps1 hwfA hrest with ⟨hwf1, hn1, hag1, c1, hread1⟩
        refine ⟨hwf1, le_trans hnA hn1, ?_, ?_⟩
        · intro a haa
          rw [hag1 a (lt_of_lt_of_le haa hnA), hagA a haa]
        · have hkey : readValP f (atLeastB h.next) h1 (.vstr n) = some (.tstr n) := by
            cases f with
            | zero => omega
            | succ f => exact readValP_vstr f _ _ n
          have hvalA : readValP f (atLeastB h.next) h1 vA = some t :=
            readValP_stable (preserves_of_agree hwfA hag1 _) hreadA
          have hrest1 : readEntriesP f (atLeastB h.next) h1 ps1 = some c1 :=
            readEntriesP_mono_pred (atLeastB_mono hnA) hread1
          refine ⟨.tdcons (.tstr n) t c1, ?_⟩
          rw [readEntriesP_cons, hkey, hvalA, hrest1]
          rfl

/-- Heap facts for a successful record deep copy. -/
theorem recordDeepcopy_success_spec (f : Nat) :
    ∀ (record : List (String × PyVal)) (h h' : Heap) (rec' : List (String × PyVal)), h.wf →
    recordDeepcopy f h record = .ok (h', rec') →
    h'.wf ∧ h.next ≤ h'.next ∧ (∀ a, a < h.next → h'.lookup a = h.lookup a) := by
  intro record
  induction record with
  | nil =>
    intro h h' rec' hwf ha
    rw [recordDeepcopy] at ha
    injection ha with ha
    injection ha with ha1 ha2
    subst ha1
    exact ⟨hwf, Nat.le_refl _, fun a _ => rfl⟩
  | cons e rest ih =>
    obtain ⟨n, v⟩ := e
    intro h h' rec' hwf ha
    rw [recordDeepcopy] at ha
    split at ha
    · cases ha
    · rename_i hA vA hdc
      rcases deepcopyE_spec hwf hdc with ⟨t, _, _, _, hnA, hwfA, hagA, _, _, _⟩
      split at ha
      · cases ha
      · rename_i h1 rec1 hrest
        injection ha with ha
        injection ha with ha1 ha2
        subst ha1
        rcases ih hA h1 rec1 hwfA hrest with ⟨hwf1, hn1, hag1⟩
        refine ⟨hwf1, le_trans hnA hn1, ?_⟩
        intro a haa
        rw [hag1 a (lt_of_lt_of_le haa hnA), hagA a haa]

/-- Heap facts for a successful Config deep copy. -/
theorem deepcopyObj_success_spec {f : Nat} {h : Heap} {c : ConfigObj} {h' : Heap}
    {c' : ConfigObj} (hwf : h.wf) (hdc : ConfigObj.deepcopyObj f h c = .ok (h', c')) :
    h'.wf ∧ h.next ≤ h'.next ∧ (∀ a, a < h.next → h'.lookup a = h.lookup a) := by
  unfold ConfigObj.deepcopyObj at hdc
  split at hdc
  · cases hdc
  · rename_i hA rawA hraw
    rcases deepcopyE_spec hwf hraw with ⟨t, _, _, _, hnA, hwfA, hagA, _, _, _⟩
    split at hdc
    · injection hdc with hdc
      injection hdc with hdc1 hdc2
      subst hdc1
      exact ⟨hwfA, hnA, hagA⟩
    · rename_i record hdata
      split at hdc
      · cases hdc
      · rename_i h1 rec1 hrd
        injection hdc with hdc
        injection hdc with hdc1 hdc2
        subst hdc1
        rcases recordDeepcopy_success_spec f record hA h1 rec1 hwfA hrd with ⟨hwf1, hn1, hag1⟩
        refine ⟨hwf1, le_trans hnA hn1, ?_⟩
        intro a haa
        rw [hag1 a (lt_of_lt_of_le haa hnA), hagA a haa]

/-- C9: with a valid token, `fetch_render_context` returns a value
structurally equal to the cached context (it reads back to the same
tree) but not reference-identical to it (builder.py lines 128-139
return `deepcopy(self.__render_context)`), and for any later heap that
keeps the builder's own cells intact — in particular after arbitrary
mutation of any previously returned copy, which lives entirely in the
fresh region — `fetch_render_context`, `fetch_processed` and
`fetch_built` again succeed and return values reading back to the same
trees as before (idempotence under mutation of returned values). -/
theorem claim_C9_fetch_copies (f : Nat) (h : Heap) (b : Builder) (a0 : Addr)
    (tctx tp tb : Tree) (hwf : h.wf)
    (hctxref : b.renderContext = .vref a0)
    (hctx : readValP f (fun _ => true) h b.renderContext = some tctx)
    (hp : readValP f (fun _ => true) h b.processed = some tp)
    (hb : readValP f (fun _ => true) h b.built = some tb) :
    ∃ h1 v1, Builder.fetch_render_context f h b b.selfId = .ok (h1, v1) ∧
      readValP f (fun _ => true) h1 v1 = some tctx ∧
      v1 ≠ b.renderContext ∧
      ∀ h2 : Heap, h2.wf → (∀ a, a < h.next → h2.lookup a = h.lookup a) →
        (∃ h3 v3, Builder.fetch_render_context f h2 b b.selfId = .ok (h3, v3) ∧
          readValP f (fun _ => true) h3 v3 = some tctx) ∧
        (∃ h3 v3, Builder.fetch_processed f h2 b b.selfId = .ok (h3, v3) ∧
          readValP f (fun _ => true) h3 v3 = some tp) ∧
        (∃ h3 v3, Builder.fetch_built f h2 b b.selfId = .ok (h3, v3) ∧
          readValP f (fun _ => true) h3 v3 = some tb) := by
  rcases deepcopy_fetch_frame f h b.renderContext tctx hwf hctx with
    ⟨h1, v1, hdc1, hwf1, hn1, hag1, hread1, hreadA1, hframe1⟩
  rcases deepcopy_fetch_frame f h b.processed tp hwf hp with
    ⟨hp1, vp1, hdcp, _, _, _, _, _, hframe2⟩
  rcases deepcopy_fetch_frame f h b.built tb hwf hb with
    ⟨hb1, vb1, hdcb, _, _, _, _, _, hframe3⟩
  refine ⟨h1, v1, fetch_render_context_own_eq hdc1, hread1, ?_, ?_⟩
  · rcases deepcopyE_spec hwf hdc1 with ⟨t, hrt, hh1, hv1, _, _, _, _, _, _⟩
    rw [hctx] at hrt
    injection hrt with ht
    subst ht
    have hshape : tctx = .tdnil ∨ (∃ k v r, tctx = .tdcons k v r) ∨ tctx = .tlnil ∨
        ∃ x r, tctx = .tlcons x r := by
      rw [hctxref] at hctx
      exact readValP_ref_shape hctx
    rcases writeValF_fresh_ref h (readValP_pos hctx) hshape with ⟨A, hA, hAge, _⟩
    have ha0 : a0 < h.next := by
      have hbel : readValP f (belowB h.next) h (.vref a0) = some tctx := by
        rw [← hctxref]
        exact read_below hwf hctx
      have := readValP_ref_pred hbel
      simpa [belowB] using this
    intro heq
    rw [hv1, hA, hctxref] at heq
    injection heq with hAa
    have hle : h.next ≤ a0 := hAa ▸ hAge
    exact absurd ha0 (Nat.not_lt.mpr hle)
  · intro h2 hwf2 hag2
    refine ⟨?_, ?_, ?_⟩
    · rcases hframe1 h2 hwf2 hag2 with ⟨h3, v3, hdc3, hr3⟩
      exact ⟨h3, v3, fetch_render_context_own_eq hdc3, hr3⟩
    · rcases hframe2 h2 hwf2 hag2 with ⟨h3, v3, hdc3, hr3⟩
      exact ⟨h3, v3, fetch_processed_own_eq hdc3, hr3⟩
    · rcases hframe3 h2 hwf2 hag2 with ⟨h3, v3, hdc3, hr3⟩
      exact ⟨h3, v3, fetch_built_own_eq hdc3, hr3⟩

theorem claim_C9_witness :
    hC9.wf ∧
    bC9.renderContext = .vref 0 ∧
    readValP 2 (fun _ => true) hC9 bC9.renderContext = some .tdnil ∧
    readValP 2 (fun _ => true) hC9 bC9.processed = some .tnone ∧
    readValP 2 (fun _ => true) hC9 bC9.built = some .tnone ∧
    (∃ h1 v1, Builder.fetch_render_context 2 hC9 bC9 bC9.selfId = .ok (h1, v1) ∧
      readValP 2 (fun _ => true) h1 v1 = some .tdnil ∧
      v1 ≠ bC9.renderContext ∧
      ∀ h2 : Heap, h2.wf → (∀ a, a < hC9.next → h2.lookup a = hC9.lookup a) →
        (∃ h3 v3, Builder.fetch_render_context 2 h2 bC9 bC9.selfId = .ok (h3, v3) ∧
          readValP 2 (fun _ => true) h3 v3 = some .tdnil) ∧
        (∃ h3 v3, Builder.fetch_processed 2 h2 bC9 bC9.selfId = .ok (h3, v3) ∧
          readValP 2 (fun _ => true) h3 v3 = some .tnone) ∧
        (∃ h3 v3, Builder.fetch_built 2 h2 bC9 bC9.selfId = .ok (h3, v3) ∧
          readValP 2 (fun _ => true) h3 v3 = some .tnone)) :=
  ⟨by decide, rfl, rfl, rfl, rfl,
    claim_C9_fetch_copies 2 hC9 bC9 0 .tdnil .tnone .tnone (by decide) rfl rfl rfl rfl⟩

/-- C10: `process_template` (builder.py lines 141-154) hands the
`_process_template` hook `fetch_render_context(target)`, a fresh deep
copy of the cached context living entirely at addresses at or above the
old allocation counter, while the builder's own cells are untouched; so
any mutation of that argument — anything an overriding hook can do to
it, which only changes cells at or above the old counter — leaves
`fetch_render_context` returning the same tree, and after the full
`process_template` call the builder still holds the same context
reference and `fetch_render_context` still returns the same tree as
before the call. -/
theorem claim_C10_process_frame (f : Nat) (h : Heap) (b : Builder) (tctx tst : Tree)
    (hwf : h.wf)
    (hctx : readValP f (fun _ => true) h b.renderContext = some tctx)
    (hst : readValP f (fun _ => true) h b.templateGetter.state = some tst) :
    ∃ h1 ctxCopy,
      Builder.fetch_render_context f h b b.selfId = .ok (h1, ctxCopy) ∧
      readValP f (atLeastB h.next) h1 ctxCopy = some tctx ∧
      (∀ a, a < h.next → h1.lookup a = h.lookup a) ∧
      (∀ h2 : Heap, h2.wf → (∀ a, a < h.next → h2.lookup a = h.lookup a) →
        ∃ h3 v3, Builder.fetch_render_context f h2 b b.selfId = .ok (h3, v3) ∧
          readValP f (fun _ => true) h3 v3 = some tctx) ∧
      ∃ h2 b2, Builder.process_template f h b b.selfId = .ok (h2, b2, b.selfId) ∧
        b2.renderContext = b.renderContext ∧ h2.wf ∧
        (∀ a, a < h.next → h2.lookup a = h.lookup a) ∧
        ∃ h3 v3, Builder.fetch_render_context f h2 b2 b2.selfId = .ok (h3, v3) ∧
          readValP f (fun _ => true) h3 v3 = some tctx := by
  rcases deepcopy_fetch_frame f h b.renderContext tctx hwf hctx with
    ⟨h1, ctxCopy, hdc1, hwf1, hn1, hag1, hread1, hreadA1, hframe1⟩
  have hfetch : Builder.fetch_render_context f h b b.selfId = .ok (h1, ctxCopy) :=
    fetch_render_context_own_eq hdc1
  have hst1 : readValP f (fun _ => true) h1 b.templateGetter.state = some tst := by
    have hbel : readValP f (belowB h.next) h b.templateGetter.state = some tst :=
      read_below hwf hst
    have hstab : readValP f (belowB h.next) h1 b.templateGetter.state = some tst := by
      refine readValP_stable ?_ hbel
      intro a hPa o ho
      rw [hag1 a (by simpa [belowB] using hPa)]
      exact ho
    exact readValP_mono_pred (fun a _ => rfl) hstab
  have hinner := process_template_inner_eq hst1 hread1
  have hproc := process_template_own_eq hfetch hinner
  refine ⟨h1, ctxCopy, hfetch, hreadA1, hag1, ?_, ?_⟩
  · intro h2 hwf2 hag2
    rcases hframe1 h2 hwf2 hag2 with ⟨h3, v3, hdc3, hr3⟩
    exact ⟨h3, v3, fetch_render_context_own_eq hdc3, hr3⟩
  · refine ⟨_, _, hproc, rfl, ?_, ?_, ?_⟩
    · exact writeValF_wf hwf1
    · intro a ha
      exact (writeValF_agree (lt_of_lt_of_le ha hn1)).trans (hag1 a ha)
    · have hwf2 : ((writeTree (b.parse_rendered_template
          (b.templateGetter.renderOf tst tctx)) h1).1).wf := writeValF_wf hwf1
      have hag2 : ∀ a, a < h.next →
          ((writeTree (b.parse_rendered_template
            (b.templateGetter.renderOf tst tctx)) h1).1).lookup a = h.lookup a := by
        intro a ha
        exact (writeValF_agree (lt_of_lt_of_le ha hn1)).trans (hag1 a ha)
      rcases hframe1 _ hwf2 hag2 with ⟨h3, v3, hdc3, hr3⟩
      exact ⟨h3, v3, fetch_render_context_own_eq hdc3, hr3⟩

theorem claim_C10_witness :
    hC10.wf ∧
    readValP 2 (fun _ => true) hC10 bC10.renderContext =
      some (.tdcons (.tstr "k") (.tint 1) .tdnil) ∧
    readValP 2 (fun _ => true) hC10 bC10.templateGetter.state = some .tnone ∧
    (∃ h1 ctxCopy,
      Builder.fetch_render_context 2 hC10 bC10 bC10.selfId = .ok (h1, ctxCopy) ∧
      readValP 2 (atLeastB hC10.next) h1 ctxCopy =
        some (.tdcons (.tstr "k") (.tint 1) .tdnil) ∧
      (∀ a, a < hC10.next → h1.lookup a = hC10.lookup a) ∧
      (∀ h2 : Heap, h2.wf → (∀ a, a < hC10.next → h2.lookup a = hC10.lookup a) →
        ∃ h3 v3, Builder.fetch_render_context 2 h2 bC10 bC10.selfId = .ok (h3, v3) ∧
          readValP 2 (fun _ => true) h3 v3 =
            some (.tdcons (.tstr "k") (.tint 1) .tdnil)) ∧
      ∃ h2 b2, Builder.process_template 2 hC10 bC10 bC10.selfId = .ok (h2, b2, bC10.selfId) ∧
        b2.renderContext = bC10.renderContext ∧ h2.wf ∧
        (∀ a, a < hC10.next → h2.lookup a = hC10.lookup a) ∧
        ∃ h3 v3, Builder.fetch_render_context 2 h2 b2 b2.selfId = .ok (h3, v3) ∧
          readValP 2 (fun _ => true) h3 v3 =
            some (.tdcons (.tstr "k") (.tint 1) .tdnil)) :=
  ⟨by decide, rfl, rfl,
    claim_C10_process_frame 2 hC10 bC10 (.tdcons (.tstr "k") (.tint 1) .tdnil) .tnone
      (by decide) rfl rfl⟩

theorem Heap.alloc_snd (h : Heap) (o : PyObj) : (h.alloc o).2 = .vref h.next := rfl

/-- Heap facts and result readability for a successful
`get_render_context` call: the heap only grows, old cells are
untouched, and the returned dict reads back entirely from the fresh
region. -/
theorem get_render_context_success_spec {f : Nat} {h : Heap} {c : ConfigObj}
    {h' : Heap} {v' : PyVal} (hwf : h.wf)
    (hg : Config.get_render_context f h c = .ok (h', v')) :
    h'.wf ∧ h.next ≤ h'.next ∧ (∀ a, a < h.next → h'.lookup a = h.lookup a) ∧
    ∃ t, readValP (f + 1) (atLeastB h.next) h' v' = some t := by
  unfold Config.get_render_context Config._get_render_context at hg
  split at hg
  · injection hg with hp
    have he1 : h' = (h.alloc (.odict [])).1 := by rw [hp]
    have he2 : v' = (h.alloc (.odict [])).2 := by rw [hp]
    subst he1
    subst he2
    refine ⟨Heap.wf_alloc hwf _, ?_, ?_, .tdnil, ?_⟩
    · rw [Heap.alloc_next]
      exact Nat.le_succ _
    · intro a ha
      exact Heap.lookup_alloc_ne h _ (Nat.ne_of_lt ha)
    · rw [Heap.alloc_snd, readValP_vref]
      simp [atLeastB, Heap.lookup_alloc_self, readEntriesP_nil]
  · rename_i record hdata
    split at hg
    · cases hg
    · rename_i h1 es ha
      injection hg with hp
      have he1 : h' = (h1.alloc (.odict es)).1 := by rw [hp]
      have he2 : v' = (h1.alloc (.odict es)).2 := by rw [hp]
      subst he1
      subst he2
      rcases asdictEntries_success_spec f record h h1 es hwf ha with
        ⟨hwf1, hn1, hag1, c1, hent1⟩
      refine ⟨Heap.wf_alloc hwf1 _, ?_, ?_, c1, ?_⟩
      · rw [Heap.alloc_next]
        exact le_trans hn1 (Nat.le_succ _)
      · intro a haa
        rw [Heap.lookup_alloc_ne h1 _ (Nat.ne_of_lt (lt_of_lt_of_le haa hn1))]
        exact hag1 a haa
      · rw [Heap.alloc_snd, readValP_vref]
        have hcond : atLeastB h.next h1.next = true := by
          simpa [atLeastB] using hn1
        rw [hcond]
        simp only [if_true]
        rw [Heap.lookup_alloc_self]
        exact readEntriesP_stable (preserves_of_agree hwf1
          (fun a haa => Heap.lookup_alloc_ne h1 _ (Nat.ne_of_lt haa)) _) hent1

/-- Frame core for a builder whose render context and template state
read back from the region at or above `n`: any heap that keeps that
region intact gives the same fetch and processing results. -/
theorem builder_frame_core (f n : Nat) (b : Builder) (h3 : Heap) (tctx tst : Tree)
    (hpwf : ∀ s, (b.parse_rendered_template s).isWF = true)
    (hctx3 : readValP (f + 1) (atLeastB n) h3 b.renderContext = some tctx)
    (hst3 : readValP f (atLeastB n) h3 b.templateGetter.state = some tst) :
    ∀ hm : Heap, hm.wf → (∀ a, n ≤ a → hm.lookup a = h3.lookup a) →
      (∃ hA vA, Builder.fetch_render_context (f + 1) hm b b.selfId = .ok (hA, vA) ∧
        readValP (f + 1) (fun _ => true) hA vA = some tctx) ∧
      (∃ hB bB, Builder.process_template (f + 1) hm b b.selfId = .ok (hB, bB, b.selfId) ∧
        readValP (b.parse_rendered_template (b.templateGetter.renderOf tst tctx)).fuelNeed
          (fun _ => true) hB bB.processed =
          some (b.parse_rendered_template (b.templateGetter.renderOf tst tctx))) := by
  intro hm hmwf hmag
  have hpres : preserves (atLeastB n) h3 hm := by
    intro a hPa o ho
    rw [hmag a (by simpa [atLeastB] using hPa)]
    exact ho
  have hctxm : readValP (f + 1) (fun _ => true) hm b.renderContext = some tctx :=
    readValP_mono_pred (fun a _ => rfl) (readValP_stable hpres hctx3)
  have hstm : readValP (f + 1) (fun _ => true) hm b.templateGetter.state = some tst := by
    have h2m : readValP f (fun _ => true) hm b.templateGetter.state = some tst :=
      readValP_mono_pred (fun a _ => rfl) (readValP_stable hpres hst3)
    exact (read_mono_fuel f (f + 1) (Nat.le_succ f)).1 _ _ _ _ h2m
  rcases deepcopy_fetch_frame (f + 1) hm b.renderContext tctx hmwf hctxm with
    ⟨hA, vA, hdcA, hwfA, hnA, hagA, hreadA, hreadAA, hframeA⟩
  have hfetchA : Builder.fetch_render_context (f + 1) hm b b.selfId = .ok (hA, vA) :=
    fetch_render_context_own_eq hdcA
  refine ⟨⟨hA, vA, hfetchA, hreadA⟩, ?_⟩
  have hstA : readValP (f + 1) (fun _ => true) hA b.templateGetter.state = some tst := by
    have hbel : readValP (f + 1) (belowB hm.next) hm b.templateGetter.state = some tst :=
      read_below hmwf hstm
    have hstab : readValP (f + 1) (belowB hm.next) hA b.templateGetter.state = some tst := by
      refine readValP_stable ?_ hbel
      intro a hPa o ho
      rw [hagA a (by simpa [belowB] using hPa)]
      exact ho
    exact readValP_mono_pred (fun a _ => rfl) hstab
  have hinner := process_template_inner_eq hstA hreadA
  have hproc := process_template_own_eq hfetchA hinner
  refine ⟨_, _, hproc, ?_⟩
  have hwr := (write_read (b.parse_rendered_template
      (b.templateGetter.renderOf tst tctx)).fuelNeed).1
    (b.parse_rendered_template (b.templateGetter.renderOf tst tctx)) hA hwfA
    (hpwf _) (Nat.le_refl _)
  exact readValP_mono_pred (fun a _ => rfl) hwr

/-- C3: `Builder.__init__` (builder.py lines 92-106) deep-copies the
Config, runs `load_config` on the copy, caches the resulting render
context, and deep-copies the template capability, starting with empty
result slots; every cached value reads back entirely from the fresh
region at or above the pre-construction allocation counter, so any
later heap — in particular one obtained by mutating the caller's
original Config or template capability, which only changes cells the
originals own — that keeps the fresh region intact yields the same
`fetch_render_context` result and the same `process_template`
processing result. -/
theorem claim_C3_init_independence (f : Nat) (h0 : Heap) (sid : Nat) (cfg : ConfigObj)
    (tg : TemplateGetter) (parse : String → Tree) (buildp : Tree → Tree)
    (h3 : Heap) (b : Builder) (hwf : h0.wf)
    (hpwf : ∀ s, (parse s).isWF = true)
    (hinit : Builder.init f h0 sid cfg tg parse buildp = .ok (h3, b)) :
    b.selfId = sid ∧ b.processed = .vnone ∧ b.built = .vnone ∧
    ∃ tctx tst,
      readValP (f + 1) (atLeastB h0.next) h3 b.renderContext = some tctx ∧
      readValP f (atLeastB h0.next) h3 b.templateGetter.state = some tst ∧
      ∀ hm : Heap, hm.wf → (∀ a, h0.next ≤ a → hm.lookup a = h3.lookup a) →
        (∃ hA vA, Builder.fetch_render_context (f + 1) hm b b.selfId = .ok (hA, vA) ∧
          readValP (f + 1) (fun _ => true) hA vA = some tctx) ∧
        (∃ hB bB, Builder.process_template (f + 1) hm b b.selfId = .ok (hB, bB, b.selfId) ∧
          readValP (parse (b.templateGetter.renderOf tst tctx)).fuelNeed
            (fun _ => true) hB bB.processed =
            some (parse (b.templateGetter.renderOf tst tctx))) := by
  unfold Builder.init at hinit
  split at hinit
  · cases hinit
  · rename_i h1 cfgCopy hdco
    split at hinit
    · cases hinit
    · rename_i cfgLoaded hload
      split at hinit
      · cases hinit
      · rename_i h2 ctx hgrc
        split at hinit
        · cases hinit
        · rename_i h3x tgs hdct
          injection hinit with hp
          injection hp with hp1 hp2
          subst hp1
          subst hp2
          rcases deepcopyObj_success_spec hwf hdco with ⟨hwf1, hn1, hag1⟩
          rcases get_render_context_success_spec hwf1 hgrc with
            ⟨hwf2, hn2, hag2, tctx, hctx2⟩
          rcases deepcopyE_spec hwf2 hdct with
            ⟨tst, hst2, hh3, hv3, hn3, hwf3, hag3, hstA, hfn, hWF⟩
          have hctx2w : readValP (f + 1) (atLeastB h0.next) h2 ctx = some tctx :=
            readValP_mono_pred (atLeastB_mono hn1) hctx2
          have hctx3 : readValP (f + 1) (atLeastB h0.next) h3x ctx = some tctx :=
            readValP_stable (preserves_of_agree hwf2 hag3 _) hctx2w
          have hst3 : readValP f (atLeastB h0.next) h3x tgs = some tst :=
            readValP_mono_pred (atLeastB_mono (le_trans hn1 hn2)) hstA
          refine ⟨rfl, rfl, rfl, tctx, tst, hctx3, hst3, ?_⟩
          exact builder_frame_core f h0.next _ h3x tctx tst hpwf hctx3 hst3

theorem claim_C3_witness :
    hC3.wf ∧ (∀ _s : String, Tree.isWF .tnone = true) ∧
    Builder.init 2 hC3 5 cC3 trivialTemplateGetter (fun _ => .tnone) (fun _ => .tnone) =
      .ok (resC3.1, resC3.2) ∧
    (resC3.2.selfId = 5 ∧ resC3.2.processed = .vnone ∧ resC3.2.built = .vnone ∧
      ∃ tctx tst,
        readValP 3 (atLeastB hC3.next) resC3.1 resC3.2.renderContext = some tctx ∧
        readValP 2 (atLeastB hC3.next) resC3.1 resC3.2.templateGetter.state = some tst ∧
        ∀ hm : Heap, hm.wf → (∀ a, hC3.next ≤ a → hm.lookup a = resC3.1.lookup a) →
          (∃ hA vA, Builder.fetch_render_context 3 hm resC3.2 resC3.2.selfId = .ok (hA, vA) ∧
            readValP 3 (fun _ => true) hA vA = some tctx) ∧
          (∃ hB bB, Builder.process_template 3 hm resC3.2 resC3.2.selfId =
              .ok (hB, bB, resC3.2.selfId) ∧
            readValP (Tree.fuelNeed .tnone) (fun _ => true) hB bB.processed =
              some .tnone)) :=
  ⟨by decide, fun _ => rfl, rfl,
    claim_C3_init_independence 2 hC3 5 cC3 trivialTemplateGetter (fun _ => .tnone)
      (fun _ => .tnone) resC3.1 resC3.2 (by decide) (fun _ => rfl) rfl⟩

/-- C4: with the builder's own token, `process_template` (builder.py
lines 141-178) validates identity, obtains the template from the
capability, renders it against (a copy of) the cached render context,
applies `parse_rendered_template` to the rendered text, stores the
result in the `processed` slot — leaving every other field unchanged —
and returns the token; `fetch_processed` afterwards returns a copy
reading back to exactly `parse_rendered_template` of the rendered
text. -/
theorem claim_C4_process_template (f : Nat) (h : Heap) (b : Builder) (tctx tst : Tree)
    (hwf : h.wf)
    (hctx : readValP f (fun _ => true) h b.renderContext = some tctx)
    (hst : readValP f (fun _ => true) h b.templateGetter.state = some tst)
    (hpwf : (b.parse_rendered_template (b.templateGetter.renderOf tst tctx)).isWF = true) :
    ∃ h2 b2,
      Builder.process_template f h b b.selfId = .ok (h2, b2, b.selfId) ∧
      b2.selfId = b.selfId ∧ b2.config = b.config ∧
      b2.renderContext = b.renderContext ∧
      b2.templateGetter = b.templateGetter ∧ b2.built = b.built ∧
      readValP (b.parse_rendered_template (b.templateGetter.renderOf tst tctx)).fuelNeed
          (fun _ => true) h2 b2.processed =
        some (b.parse_rendered_template (b.templateGetter.renderOf tst tctx)) ∧
      ∃ h4 v4, Builder.fetch_processed
          (b.parse_rendered_template (b.templateGetter.renderOf tst tctx)).fuelNeed
          h2 b2 b2.selfId = .ok (h4, v4) ∧
        readValP (b.parse_rendered_template (b.templateGetter.renderOf tst tctx)).fuelNeed
            (fun _ => true) h4 v4 =
          some (b.parse_rendered_template (b.templateGetter.renderOf tst tctx)) := by
  rcases deepcopy_fetch_frame f h b.renderContext tctx hwf hctx with
    ⟨h1, ctxCopy, hdc1, hwf1, hn1, hag1, hread1, hreadA1, hframe1⟩
  have hfetch : Builder.fetch_render_context f h b b.selfId = .ok (h1, ctxCopy) :=
    fetch_render_context_own_eq hdc1
  have hst1 : readValP f (fun _ => true) h1 b.templateGetter.state = some tst := by
    have hbel : readValP f (belowB h.next) h b.templateGetter.state = some tst :=
      read_below hwf hst
    have hstab : readValP f (belowB h.next) h1 b.templateGetter.state = some tst := by
      refine readValP_stable ?_ hbel
      intro a hPa o ho
      rw [hag1 a (by simpa [belowB] using hPa)]
      exact ho
    exact readValP_mono_pred (fun a _ => rfl) hstab
  have hinner := process_template_inner_eq hst1 hread1
  have hproc := process_template_own_eq hfetch hinner
  have hwr := (write_read (b.parse_rendered_template
      (b.templateGetter.renderOf tst tctx)).fuelNeed).1
    (b.parse_rendered_template (b.templateGetter.renderOf tst tctx)) h1 hwf1
    hpwf (Nat.le_refl _)
  have hwr2 : readValP (b.parse_rendered_template
      (b.templateGetter.renderOf tst tctx)).fuelNeed (fun _ => true)
      (writeTree (b.parse_rendered_template (b.templateGetter.renderOf tst tctx)) h1).1
      (writeTree (b.parse_rendered_template (b.templateGetter.renderOf tst tctx)) h1).2 =
      some (b.parse_rendered_template (b.templateGetter.renderOf tst tctx)) :=
    readValP_mono_pred (fun a _ => rfl) hwr
  have hwf2 : ((writeTree (b.parse_rendered_template
      (b.templateGetter.renderOf tst tctx)) h1).1).wf := writeValF_wf hwf1
  rcases deepcopy_fetch_frame
      (b.parse_rendered_template (b.templateGetter.renderOf tst tctx)).fuelNeed
      (writeTree (b.parse_rendered_template (b.templateGetter.renderOf tst tctx)) h1).1
      (writeTree (b.parse_rendered_template (b.templateGetter.renderOf tst tctx)) h1).2
      (b.parse_rendered_template (b.templateGetter.renderOf tst tctx)) hwf2 hwr2 with
    ⟨h4, v4, hdc4, hwf4, hn4, hag4, hread4, hreadA4, hframe4⟩
  refine ⟨_, _, hproc, rfl, rfl, rfl, rfl, rfl, hwr2, h4, v4,
    fetch_processed_own_eq hdc4, hread4⟩

theorem claim_C4_witness :
    hC4.wf ∧
    readValP 2 (fun _ => true) hC4 bC4.renderContext = some .tdnil ∧
    readValP 2 (fun _ => true) hC4 bC4.templateGetter.state = some .tnone ∧
    Tree.isWF (.tstr "T") = true ∧
    (∃ h2 b2, Builder.process_template 2 hC4 bC4 bC4.selfId = .ok (h2, b2, bC4.selfId) ∧
      b2.selfId = bC4.selfId ∧ b2.config = bC4.config ∧
      b2.renderContext = bC4.renderContext ∧
      b2.templateGetter = bC4.templateGetter ∧ b2.built = bC4.built ∧
      readValP (Tree.fuelNeed (.tstr "T")) (fun _ => true) h2 b2.processed =
        some (.tstr "T") ∧
      ∃ h4 v4, Builder.fetch_processed (Tree.fuelNeed (.tstr "T")) h2 b2 b2.selfId =
          .ok (h4, v4) ∧
        readValP (Tree.fuelNeed (.tstr "T")) (fun _ => true) h4 v4 = some (.tstr "T")) :=
  ⟨by decide, rfl, rfl, rfl,
    claim_C4_process_template 2 hC4 bC4 .tdnil .tnone (by decide) rfl rfl rfl⟩

end Templa
